import Mathlib

/-!
Verification of the interactive geometry engine of the A.Zone spatial-layout
editor against its natural-language specification.

The TypeScript sources are shallowly embedded in Lean: numbers are modelled
as exact rationals (ℚ), JavaScript `Math.round` as floor of `x + 1/2`
(round half towards positive infinity), 32-bit bitwise coercions explicitly
via `mod 2^32`, and event-handler bodies as pure functions from their inputs
(start-of-gesture snapshot, pointer event, surrounding state) to the values
they write back.  Effectful operations (file downloads, alerts) are modelled
by the branch of the control flow that is taken.
-/

-- ===================================================================
-- Definitions
-- ===================================================================

/-- A 2-D point with rational coordinates, the model of the `Point`
interface (`{x: number, y: number}`) of the source. -/
structure Point where
  x : ℚ
  y : ℚ
deriving DecidableEq, Repr

instance : Inhabited Point := ⟨⟨0, 0⟩⟩

/-- Cross product of vectors OA and OB, translated from `cross` in
`src/utils/geometry.ts` (`src/unnamed/part_005`): positive means a
counter-clockwise turn, 0 collinear, negative clockwise. -/
def cross (o a b : Point) : ℚ :=
  (a.x - o.x) * (b.y - o.y) - (a.y - o.y) * (b.x - o.x)

/-- Lexicographic comparison (by x, then by y), the Boolean order realised
by the JS comparator `(a, b) => a.x === b.x ? a.y - b.y : a.x - b.x` used in
`getConvexHull`.  Ties of the comparator occur only between equal points, so
the sorted list of values is uniquely determined and any sorting algorithm
models `Array.prototype.sort` faithfully. -/
def lexLe (a b : Point) : Bool :=
  decide (a.x < b.x ∨ (a.x = b.x ∧ a.y ≤ b.y))

/-- Strict lexicographic order on points (as a proposition). -/
def LexLt (a b : Point) : Prop :=
  a.x < b.x ∨ (a.x = b.x ∧ a.y < b.y)

instance : DecidablePred fun p : Point × Point => LexLt p.1 p.2 := by
  intro p; unfold LexLt; infer_instance

/-- Pop loop of the monotone-chain algorithm (`while (lower.length >= 2 &&
cross(...) <= 0) lower.pop()`), operating on the stack stored head-first
(head = most recently pushed point). -/
def popBad (stack : List Point) (p : Point) : List Point :=
  match stack with
  | b :: a :: rest => if cross a b p ≤ 0 then popBad (a :: rest) p else b :: a :: rest
  | s => s

/-- One hull-chain construction pass (used for both the lower and the upper
chain): fold the point sequence, popping then pushing each point.  The
resulting list is head-first (reverse of the array order in the source). -/
def buildChain (pts : List Point) : List Point :=
  pts.foldl (fun st p => p :: popBad st p) []

/-- Monotone-chain convex hull, translated from `getConvexHull` in
`src/utils/geometry.ts` (`src/unnamed/part_005`): inputs of length ≤ 1 are
returned unchanged; otherwise the points are sorted lexicographically, the
lower and upper chains are built with pop condition `cross ≤ 0`, the last
element of each chain is dropped and the chains are concatenated. -/
def getConvexHull (points : List Point) : List Point :=
  if points.length ≤ 1 then points
  else
    let sorted := points.mergeSort lexLe
    let lower := (buildChain sorted).reverse
    let upper := (buildChain sorted.reverse).reverse
    lower.dropLast ++ upper.dropLast

/-- Shoelace-formula area, translated from `calculatePolygonArea` in
`src/unnamed/part_001` (lines 509-518): accumulate
`x_i*y_j - x_j*y_i` with `j = (i+1) % n` over all indices, then take
`|area| / 2` and divide by `pixelsPerMeter²`. -/
def calculatePolygonArea (points : List Point) (pixelsPerMeter : ℚ) : ℚ :=
  |(List.range points.length).foldl
      (fun acc i =>
        acc + (points.getD i default).x * (points.getD ((i + 1) % points.length) default).y
            - (points.getD ((i + 1) % points.length) default).x * (points.getD i default).y) 0|
    / 2 / (pixelsPerMeter * pixelsPerMeter)

/-- Term `x_i·y_{i+1 mod n} − x_{i+1 mod n}·y_i` of the shoelace sum. -/
def shoelaceTerm (points : List Point) (i : ℕ) : ℚ :=
  (points.getD i default).x * (points.getD ((i + 1) % points.length) default).y
    - (points.getD ((i + 1) % points.length) default).x * (points.getD i default).y

/-- Spec-side shoelace sum `Σ (x_i·y_{i+1} − x_{i+1}·y_i)` (indices mod n),
written from the specification's formula for comparison with the code. -/
def shoelaceSpecSum (points : List Point) : ℚ :=
  ∑ i ∈ Finset.range points.length, shoelaceTerm points i

/-- Screen-to-world transform, translated from `screenToWorld` in
`src/App.tsx` (lines 135-142); `rectLeft`/`rectTop` model the canvas
bounding rectangle of `mainRef`. -/
def screenToWorld (rectLeft rectTop : ℚ) (offset : Point) (scale : ℚ)
    (clientX clientY : ℚ) : Point :=
  ⟨(clientX - rectLeft - offset.x) / scale, (clientY - rectTop - offset.y) / scale⟩

/-- New scale computed by the wheel handler (`handleWheel` in `src/App.tsx`,
lines 155-175): `Math.min(Math.max(0.1, scale - deltaY * 0.001), 5)`. -/
def handleWheelNewScale (scale deltaY : ℚ) : ℚ :=
  min (max (1/10) (scale - deltaY * (1/1000))) 5

/-- New offset computed by the wheel handler: the world point under the
cursor is computed with the old scale, then
`newOffset = mouse − world × newScale`. -/
def handleWheelNewOffset (rectLeft rectTop : ℚ) (offset : Point) (scale : ℚ)
    (clientX clientY deltaY : ℚ) : Point :=
  let mouseX := clientX - rectLeft
  let mouseY := clientY - rectTop
  let worldX := (mouseX - offset.x) / scale
  let worldY := (mouseY - offset.y) / scale
  let newScale := handleWheelNewScale scale deltaY
  ⟨mouseX - worldX * newScale, mouseY - worldY * newScale⟩

/-- A space ("room").  The `Room` interface lives in `types.ts`, which is
not among the provided sources; the fields are modelled from the spec's data
model (§3, §6: `{id, name, area, zone, isPlaced, floor, x, y, width,
height, polygon?}`) and from their uses throughout the provided sources. -/
structure Room where
  id : String
  name : String
  zone : String
  area : ℚ
  x : ℚ
  y : ℚ
  width : ℚ
  height : ℚ
  isPlaced : Bool
  floor : ℤ
  polygon : Option (List Point)
deriving DecidableEq, Repr

/-- JavaScript `Math.round`: round half towards positive infinity. -/
def jsRound (q : ℚ) : ℚ := (⌊q + 1/2⌋ : ℤ)

/-- JavaScript `Number(x.toFixed(2))` on the exact rationals arising here:
round to two decimal places. -/
def jsToFixed2 (q : ℚ) : ℚ := jsRound (q * 100) / 100

/-- The `snap` helper of the bubble component (`src/unnamed/part_001`,
line 736): identity when snapping is disabled, otherwise round to the
nearest multiple of `snapPixelUnit`. -/
def snapFn (snapEnabled : Bool) (snapPixelUnit val : ℚ) : ℚ :=
  if snapEnabled then jsRound (val / snapPixelUnit) * snapPixelUnit else val

/-- Start-of-gesture snapshot captured by `handleMouseDown` /
`handleVertexMouseDown` / `handleEdgeMouseDown` into
`startDragState.current`. -/
structure DragStart where
  startX : ℚ
  startY : ℚ
  roomX : ℚ
  roomY : ℚ
  roomW : ℚ
  roomH : ℚ
  initialPoints : List Point
deriving DecidableEq, Repr

/-- Ambient state read by the global mouse-move handler: zoom scale, grid
snap flag and unit, and the other placed rooms used as snap targets. -/
structure DragEnv where
  zoomScale : ℚ
  snapEnabled : Bool
  snapPixelUnit : ℚ
  otherRooms : List Room
deriving DecidableEq, Repr

/-- One object-snap candidate of the whole-shape dragging branch: a moving
edge coordinate `my` (with its offset `off` from the shape origin) compared
against a target coordinate `tgt` of another room. -/
structure SnapCand where
  my : ℚ
  off : ℚ
  tgt : ℚ
deriving DecidableEq, Repr

/-- Distance of a candidate: `Math.abs(myXs[i] - tx)`. -/
def candDiff (c : SnapCand) : ℚ := |c.my - c.tgt|

/-- Snapped origin coordinate produced by a candidate: `tx - myXOffsets[i]`. -/
def candVal (c : SnapCand) : ℚ := c.tgt - c.off

/-- One iteration of the candidate loops of the dragging branch
(`if (diff < minDX) { minDX = diff; snappedX = tx - myXOffsets[i]; }`):
the state is the pair (current minimum, current snapped value). -/
def scanStep (st : ℚ × Option ℚ) (c : SnapCand) : ℚ × Option ℚ :=
  if candDiff c < st.1 then (candDiff c, some (candVal c)) else st

/-- The full nested candidate loop of the dragging branch, with the minimum
initialised to the threshold and the snapped value to `null`. -/
def snapScan (cands : List SnapCand) (threshold : ℚ) : ℚ × Option ℚ :=
  cands.foldl scanStep (threshold, none)

/-- Candidate list in iteration order: outer loop over the moving shape's
leading/center/trailing edges (`myXs`/`myXOffsets`), inner loop over the
targets. -/
def dragCands (raw size : ℚ) (targets : List ℚ) : List SnapCand :=
  ([(raw, 0), (raw + size/2, size/2), (raw + size, size)] : List (ℚ × ℚ)).flatMap
    (fun mo => targets.map (fun t => ⟨mo.1, mo.2, t⟩))

/-- X snap targets collected from the other rooms
(`targetXs.push(r.x, r.x + r.width/2, r.x + r.width)`). -/
def dragTargetsX (rooms : List Room) : List ℚ :=
  rooms.flatMap (fun r => [r.x, r.x + r.width/2, r.x + r.width])

/-- Y snap targets collected from the other rooms. -/
def dragTargetsY (rooms : List Room) : List ℚ :=
  rooms.flatMap (fun r => [r.y, r.y + r.height/2, r.y + r.height])

/-- Final coordinate of one axis of the dragging branch: the object-snapped
value if one was found, else the grid snap (when enabled), else the raw
value. -/
def dragAxis (snapEnabled : Bool) (snapPixelUnit threshold raw size : ℚ)
    (targets : List ℚ) : ℚ :=
  match (snapScan (dragCands raw size targets) threshold).2 with
  | some v => v
  | none => snapFn snapEnabled snapPixelUnit raw

/-- The whole-shape dragging branch of `handleMouseMove`
(`src/unnamed/part_001`, lines 873-913) as a pure function of the
start-of-gesture snapshot, the ambient state and the absolute pointer
position of the event. -/
def dragPosition (s : DragStart) (env : DragEnv) (clientX clientY : ℚ) : ℚ × ℚ :=
  let rawX := s.roomX + (clientX - s.startX) / env.zoomScale
  let rawY := s.roomY + (clientY - s.startY) / env.zoomScale
  let threshold := 10 / env.zoomScale
  (dragAxis env.snapEnabled env.snapPixelUnit threshold rawX s.roomW
      (dragTargetsX env.otherRooms),
   dragAxis env.snapEnabled env.snapPixelUnit threshold rawY s.roomH
      (dragTargetsY env.otherRooms))

/-- The write performed by the dragging branch:
`updateRoom(room.id, { x: rawX, y: rawY })`. -/
def setPos (r : Room) (p : ℚ × ℚ) : Room := { r with x := p.1, y := p.2 }

/-- Deliver a sequence of mouse-move events (absolute pointer positions)
during one whole-shape drag gesture; each event overwrites the room's
position with the value computed from the unchanged snapshot. -/
def applyMoves (s : DragStart) (env : DragEnv) (room : Room)
    (events : List (ℚ × ℚ)) : Room :=
  events.foldl (fun r e => setPos r (dragPosition s env e.1 e.2)) room

/-- Spec-side rule for one axis of object snapping, written from the spec's
words for comparison with the code: "the first candidate found within the
threshold wins, with ties broken by edge iteration order". -/
def firstWithinThreshold (cands : List SnapCand) (threshold : ℚ) : Option ℚ :=
  (cands.find? (fun c => decide (candDiff c < threshold))).map candVal

/-- The four edge resize handles. -/
inductive ResizeHandle
  | n
  | s
  | e
  | w
deriving DecidableEq, Repr

/-- Geometry fields committed by one resize mouse-move
(`updateRoom(room.id, { x, y, width, height, area })`). -/
structure ResizeCommit where
  x : ℚ
  y : ℚ
  width : ℚ
  height : ℚ
  area : ℚ
deriving DecidableEq, Repr

/-- The resize branch of `handleMouseMove` (`src/unnamed/part_001`, lines
789-838) as a pure function; `pixelsPerMeter` enters only through the
recomputed area. -/
def resizeResult (st : DragStart) (handle : ResizeHandle) (snapEnabled : Bool)
    (snapPixelUnit zoomScale pixelsPerMeter : ℚ) (clientX clientY : ℚ) :
    ResizeCommit :=
  let dxWorld := (clientX - st.startX) / zoomScale
  let dyWorld := (clientY - st.startY) / zoomScale
  let minSize : ℚ := 20
  let g : ℚ × ℚ × ℚ × ℚ :=
    match handle with
    | .e =>
        let w1 := max minSize (st.roomW + dxWorld)
        (st.roomX, st.roomY, snapFn snapEnabled snapPixelUnit w1, st.roomH)
    | .w =>
        let proposedW := st.roomW - dxWorld
        if minSize ≤ proposedW then
          if snapEnabled then
            let snappedX := snapFn snapEnabled snapPixelUnit (st.roomX + dxWorld)
            let diff := snappedX - (st.roomX + dxWorld)
            (snappedX, st.roomY,
              snapFn snapEnabled snapPixelUnit (proposedW - diff), st.roomH)
          else
            (st.roomX + dxWorld, st.roomY, proposedW, st.roomH)
        else (st.roomX, st.roomY, st.roomW, st.roomH)
    | .s =>
        let h1 := max minSize (st.roomH + dyWorld)
        (st.roomX, st.roomY, st.roomW, snapFn snapEnabled snapPixelUnit h1)
    | .n =>
        let proposedH := st.roomH - dyWorld
        if minSize ≤ proposedH then
          if snapEnabled then
            let snappedY := snapFn snapEnabled snapPixelUnit (st.roomY + dyWorld)
            let diff := snappedY - (st.roomY + dyWorld)
            (st.roomX, snappedY, st.roomW,
              snapFn snapEnabled snapPixelUnit (proposedH - diff))
          else
            (st.roomX, st.roomY + dyWorld, st.roomW, proposedH)
        else (st.roomX, st.roomY, st.roomW, st.roomH)
  ⟨g.1, g.2.1, g.2.2.1, g.2.2.2,
    jsToFixed2 (g.2.2.1 * g.2.2.2 / (pixelsPerMeter * pixelsPerMeter))⟩

/-- JavaScript `Math.max(...list)` over a nonempty spread (every call site
passes the nonempty polygon coordinate list). -/
def jsMaxList : List ℚ → ℚ
  | [] => 0
  | q :: qs => qs.foldl max q

/-- JavaScript `Math.min(...list)` over a nonempty spread. -/
def jsMinList : List ℚ → ℚ
  | [] => 0
  | q :: qs => qs.foldl min q

/-- Snap-target collection of the vertex/edge editing branches
(`getSnapTargets` in `src/unnamed/part_001`, lines 741-763): the other
vertices of the dragged polygon (world coordinates) followed by the
bounding-box edges and polygon vertices of every other room.  Returns the
(targetsX, targetsY) pair. -/
def getSnapTargets (initialPoints : List Point) (roomX roomY : ℚ)
    (otherRooms : List Room) (ignore : List ℕ) : List ℚ × List ℚ :=
  let polyX := initialPoints.enum.filterMap
    (fun ip => if ip.1 ∈ ignore then none else some (ip.2.x + roomX))
  let polyY := initialPoints.enum.filterMap
    (fun ip => if ip.1 ∈ ignore then none else some (ip.2.y + roomY))
  let roomsX := otherRooms.flatMap (fun r =>
    [r.x, r.x + r.width] ++ (match r.polygon with
      | some poly => poly.map (fun p => r.x + p.x)
      | none => []))
  let roomsY := otherRooms.flatMap (fun r =>
    [r.y, r.y + r.height] ++ (match r.polygon with
      | some poly => poly.map (fun p => r.y + p.y)
      | none => []))
  (polyX ++ roomsX, polyY ++ roomsY)

/-- Translated from `calculateSmartSnap` (`src/unnamed/part_001`, lines
765-778): the first target within `10 / zoomScale` of the absolute
coordinate wins (`break` on first match); returns the possibly snapped
relative value and the guide (`null` when nothing matched). -/
def calculateSmartSnap (zoomScale val : ℚ) (targets : List ℚ)
    (currentRoomBase : ℚ) : ℚ × Option ℚ :=
  let threshold := 10 / zoomScale
  let absVal := currentRoomBase + val
  match targets.find? (fun t => decide (|absVal - t| < threshold)) with
  | some t => (t - currentRoomBase, some t)
  | none => (val, none)

/-- Shared tail of the vertex/edge branches: commit the new polygon, the
area recomputed by the shoelace formula, and the bounding box grown to
`Math.max(room.width, Math.max(...xs))` (resp. height/ys). -/
def commitPolygon (room : Room) (newPoints : List Point)
    (pixelsPerMeter : ℚ) : Room :=
  { room with
    polygon := some newPoints
    area := jsToFixed2 (calculatePolygonArea newPoints pixelsPerMeter)
    width := max room.width (jsMaxList (newPoints.map (fun p => p.x)))
    height := max room.height (jsMaxList (newPoints.map (fun p => p.y))) }

/-- New polygon produced by the vertex-dragging branch of `handleMouseMove`
(`src/unnamed/part_001`, lines 839-857): the dragged vertex is moved by the
cumulative world delta, object-snapped via `calculateSmartSnap` against the
other vertices and rooms, else grid-snapped in absolute coordinates when
snapping is enabled. -/
def vertexNewPoints (room : Room) (st : DragStart) (env : DragEnv)
    (idx : ℕ) (clientX clientY : ℚ) : List Point :=
  let dxWorld := (clientX - st.startX) / env.zoomScale
  let dyWorld := (clientY - st.startY) / env.zoomScale
  let point := st.initialPoints.getD idx default
  let nx0 := point.x + dxWorld
  let ny0 := point.y + dyWorld
  let targets := getSnapTargets st.initialPoints room.x room.y env.otherRooms [idx]
  let snapX := calculateSmartSnap env.zoomScale nx0 targets.1 room.x
  let snapY := calculateSmartSnap env.zoomScale ny0 targets.2 room.y
  let nx := match snapX.2 with
    | some _ => snapX.1
    | none =>
        if env.snapEnabled then
          jsRound ((room.x + nx0) / env.snapPixelUnit) * env.snapPixelUnit - room.x
        else nx0
  let ny := match snapY.2 with
    | some _ => snapY.1
    | none =>
        if env.snapEnabled then
          jsRound ((room.y + ny0) / env.snapPixelUnit) * env.snapPixelUnit - room.y
        else ny0
  st.initialPoints.set idx ⟨nx, ny⟩

/-- The vertex-dragging branch as a pure function of the snapshot, ambient
state and the event's absolute pointer position. -/
def vertexDragCommit (room : Room) (st : DragStart) (env : DragEnv)
    (idx : ℕ) (pixelsPerMeter : ℚ) (clientX clientY : ℚ) : Room :=
  commitPolygon room (vertexNewPoints room st env idx clientX clientY) pixelsPerMeter

/-- New polygon produced by the edge-dragging branch of `handleMouseMove`
(`src/unnamed/part_001`, lines 858-872): the drag is locked to the axis of
larger magnitude, grid snap is applied to the delta, and both edge
endpoints are moved together. -/
def edgeNewPoints (st : DragStart) (env : DragEnv)
    (idx : ℕ) (clientX clientY : ℚ) : List Point :=
  let dxWorld := (clientX - st.startX) / env.zoomScale
  let dyWorld := (clientY - st.startY) / env.zoomScale
  let i1 := idx
  let i2 := (idx + 1) % st.initialPoints.length
  let dx0 := if |dyWorld| < |dxWorld| then dxWorld else 0
  let dy0 := if |dyWorld| < |dxWorld| then 0 else dyWorld
  let dx := snapFn env.snapEnabled env.snapPixelUnit dx0
  let dy := snapFn env.snapEnabled env.snapPixelUnit dy0
  let p1 := st.initialPoints.getD i1 default
  let lst1 := st.initialPoints.set i1 ⟨p1.x + dx, p1.y + dy⟩
  let p2 := lst1.getD i2 default
  lst1.set i2 ⟨p2.x + dx, p2.y + dy⟩

/-- The edge-dragging branch as a pure function. -/
def edgeDragCommit (room : Room) (st : DragStart) (env : DragEnv)
    (idx : ℕ) (pixelsPerMeter : ℚ) (clientX clientY : ℚ) : Room :=
  commitPolygon room (edgeNewPoints st env idx clientX clientY) pixelsPerMeter

/-- The export formats of `src/utils/exportSystem.ts`. -/
inductive ExportFormat
  | png
  | jpeg
  | svg
  | dxf
  | json
  | pdf
deriving DecidableEq, Repr

/-- Outcome of an export invocation: either some file is produced
(`triggerDownload` and the format-specific pipelines), or the operation is
rejected with the user-facing notice (`alert("No visible rooms to
export.")`) and no file is produced. -/
inductive ExportOutcome
  | fileProduced
  | rejectedNotice
deriving DecidableEq, Repr

/-- Control flow of `handleExport` (`src/utils/exportSystem.ts`, lines
101-141) up to the point where an artifact is produced: the `json` branch
downloads a full snapshot and returns before the visible-room filter; every
other format first filters the placed rooms of the current floor and rejects
when none remain. -/
def handleExport (format : ExportFormat) (rooms : List Room)
    (currentFloor : ℤ) : ExportOutcome :=
  match format with
  | .json => .fileProduced
  | _ =>
      let visibleRooms := rooms.filter
        (fun r => r.isPlaced && decide (r.floor = currentFloor))
      if visibleRooms.length = 0 then .rejectedNotice else .fileProduced

/-- A palette entry (Tailwind class names), per the `ZoneColor` type of
`types.ts`. -/
structure ZoneColor where
  bg : String
  border : String
  text : String
deriving DecidableEq, Repr

/-- Modelled from the spec: `ZONE_COLORS` lives in `types.ts`, which is not
under `src/`.  Per the spec (§3 Zone, §4.5, §4.7 step 3) it is a fixed
palette table keyed by the standard zone labels, with Tailwind background
and border classes; the background classes match the hex comments inside
`getHexColorForZone` (`Public` blue-100, `Private` pink-100, `Service`
slate-100, `Circulation` orange-100, `Outdoor` green-100, `Default`
slate-100). -/
def ZONE_COLORS : List (String × ZoneColor) :=
  [("Public", ⟨"bg-blue-100", "border-blue-500", "text-blue-600"⟩),
   ("Private", ⟨"bg-pink-100", "border-pink-500", "text-pink-600"⟩),
   ("Service", ⟨"bg-slate-100", "border-slate-500", "text-slate-600"⟩),
   ("Circulation", ⟨"bg-orange-100", "border-orange-500", "text-orange-600"⟩),
   ("Outdoor", ⟨"bg-green-100", "border-green-500", "text-green-600"⟩),
   ("Default", ⟨"bg-slate-100", "border-slate-500", "text-slate-600"⟩)]

/-- Association-list lookup modelling JS object indexing `m[k]`. -/
def lookupStr (m : List (String × String)) (k : String) : Option String :=
  (m.find? (fun kv => kv.1 == k)).map (fun kv => kv.2)

/-- Association-list lookup for the zone-colors record. -/
def zcLookup (zoneColors : List (String × ZoneColor)) (z : String) :
    Option ZoneColor :=
  (zoneColors.find? (fun kv => kv.1 == z)).map (fun kv => kv.2)

/-- The `tailwindMap` of `getHexColorForZone` (`src/utils/exportSystem.ts`,
lines 609-632). -/
def tailwindBgMap : List (String × String) :=
  [("bg-blue-100", "#dbeafe"), ("bg-green-100", "#dcfce7"),
   ("bg-orange-100", "#ffedd5"), ("bg-purple-100", "#f3e8ff"),
   ("bg-pink-100", "#fce7f3"), ("bg-slate-100", "#f1f5f9"),
   ("bg-red-100", "#fee2e2"), ("bg-yellow-100", "#fef9c3"),
   ("bg-teal-100", "#ccfbf1"), ("bg-indigo-100", "#e0e7ff"),
   ("bg-cyan-100", "#cffafe"), ("bg-lime-100", "#ecfccb"),
   ("bg-emerald-100", "#d1fae5"), ("bg-sky-100", "#e0f2fe"),
   ("bg-violet-100", "#ede9fe"), ("bg-fuchsia-100", "#fae8ff"),
   ("bg-rose-100", "#ffe4e6"), ("bg-gray-100", "#f3f4f6"),
   ("bg-neutral-100", "#f5f5f5"), ("bg-stone-100", "#f5f5f4"),
   ("bg-zinc-100", "#f4f4f5"), ("bg-amber-100", "#fef3c7")]

/-- The standard-zone fill map of `getHexColorForZone` (lines 637-644). -/
def standardFillMap : List (String × String) :=
  [("Public", "#dbeafe"), ("Private", "#fce7f3"), ("Service", "#f3f4f6"),
   ("Circulation", "#ffedd5"), ("Outdoor", "#dcfce7"), ("Default", "#f1f5f9")]

/-- The `tailwindMap` of `getHexBorderForZone` (lines 663-682). -/
def tailwindBorderMap : List (String × String) :=
  [("border-blue-500", "#3b82f6"), ("border-blue-600", "#2563eb"),
   ("border-green-500", "#22c55e"), ("border-green-600", "#16a34a"),
   ("border-orange-500", "#f97316"), ("border-orange-600", "#ea580c"),
   ("border-purple-500", "#a855f7"), ("border-purple-600", "#9333ea"),
   ("border-pink-500", "#ec4899"), ("border-pink-600", "#db2777"),
   ("border-slate-500", "#64748b"), ("border-slate-600", "#475569"),
   ("border-red-500", "#ef4444"), ("border-red-600", "#dc2626"),
   ("border-yellow-500", "#eab308"), ("border-yellow-600", "#ca8a04"),
   ("border-gray-500", "#6b7280"), ("border-gray-600", "#4b5563")]

/-- The standard-zone border map of `getHexBorderForZone` (lines 686-693). -/
def standardBorderMap : List (String × String) :=
  [("Public", "#3b82f6"), ("Private", "#ec4899"), ("Service", "#64748b"),
   ("Circulation", "#f97316"), ("Outdoor", "#22c55e"), ("Default", "#64748b")]

/-- Lowercasing of a string (`String.prototype.toLowerCase` on the ASCII
labels involved). -/
def toLowerStr (s : String) : String := ⟨s.data.map Char.toLower⟩

/-- Substring test on character lists (JS `String.prototype.includes`). -/
def listInfixB (pat : List Char) : List Char → Bool
  | [] => pat.isEmpty
  | c :: rest => pat.isPrefixOf (c :: rest) || listInfixB pat rest

/-- JS `s.includes(pat)`. -/
def strIncludes (s pat : String) : Bool := listInfixB pat.toList s.toList

/-- Translated from `getZoneStyle` in the bubble component
(`src/unnamed/part_001`, lines 604-608): the first palette key whose
lower-cased text occurs in the lower-cased zone label wins, else the
`Default` entry.  This is the colour resolution of the live view. -/
def getZoneStyle (z : String) : ZoneColor :=
  match ZONE_COLORS.find?
      (fun kv => strIncludes (toLowerStr z) (toLowerStr kv.1)) with
  | some kv => kv.2
  | none => (zcLookup ZONE_COLORS "Default").getD ⟨"", "", ""⟩

/-- JavaScript `ToInt32`: reduce an integer into the signed 32-bit range. -/
def toInt32 (n : ℤ) : ℤ :=
  let m := n % 4294967296
  if m < 2147483648 then m else m - 4294967296

/-- One step of the hash loop `hash = zone.charCodeAt(i) + ((hash << 5) -
hash)`: the shift coerces to int32 (`toInt32 (toInt32 h * 32)`), the
subtraction and addition are exact. -/
def hashStep (h : ℤ) (c : Char) : ℤ :=
  (c.toNat : ℤ) + (toInt32 (toInt32 h * 32) - h)

/-- The hash accumulated over the label's UTF-16 code units (the labels
involved are ASCII, where code units and code points agree). -/
def zoneHash (z : String) : ℤ := z.toList.foldl hashStep 0

/-- JS `hash & 0x00FFFFFF`: the low 24 bits of the 32-bit pattern of the
hash, i.e. the hash modulo 2^24 (nonnegative). -/
def hashMasked (z : String) : ℕ := ((zoneHash z) % 16777216).toNat

/-- Uppercase base-16 rendering (`c.toString(16).toUpperCase()`). -/
def hexUpper (n : ℕ) : String := ⟨(Nat.toDigits 16 n).map Char.toUpper⟩

/-- The hash-fallback colour of `getHexColorForZone`:
`'#' + "00000".substring(0, 6 - c.length) + c`. -/
def hashColor (z : String) : String :=
  let c := hexUpper (hashMasked z)
  "#" ++ ⟨"00000".toList.take (6 - c.length)⟩ ++ c

/-- The shared fallback tail of `getHexColorForZone`: exact match against
the standard-zone map, else the hash colour. -/
def getHexColorFallback (zone : String) : String :=
  match lookupStr standardFillMap zone with
  | some hex => hex
  | none => hashColor zone

/-- Translated from `getHexColorForZone` (`src/utils/exportSystem.ts`,
lines 605-657): resolve via the zone-colors record and the Tailwind map
first, else fall through to the standard map and the hash fallback.  This
is the fill-colour resolution shared by the SVG/PNG/JPEG/PDF export
pipelines. -/
def getHexColorForZone (zone : String)
    (zoneColors : List (String × ZoneColor)) : String :=
  match zcLookup zoneColors zone with
  | some zc =>
      match lookupStr tailwindBgMap zc.bg with
      | some hex => hex
      | none => getHexColorFallback zone
  | none => getHexColorFallback zone

/-- Replace the first occurrence of `pat` in `l` by `rep`
(JS `String.prototype.replace` with a string pattern). -/
def replaceFirst (pat rep : List Char) : List Char → List Char
  | [] => []
  | c :: rest =>
      if pat.isPrefixOf (c :: rest) then rep ++ (c :: rest).drop pat.length
      else c :: replaceFirst pat rep rest

/-- The shared fallback tail of `getHexBorderForZone`: exact match against
the standard border map, else the constant `'#64748b'`. -/
def getHexBorderFallback (zone : String) : String :=
  match lookupStr standardBorderMap zone with
  | some hex => hex
  | none => "#64748b"

/-- Translated from `getHexBorderForZone` (`src/utils/exportSystem.ts`,
lines 659-694); an absent optional field of the record is modelled by the
empty string (both are falsy for `||`). -/
def getHexBorderForZone (zone : String)
    (zoneColors : Option (List (String × ZoneColor))) : String :=
  match zoneColors with
  | some zcs =>
      match zcLookup zcs zone with
      | some zc =>
          let classKey :=
            if zc.border ≠ "" then zc.border
            else if zc.text ≠ "" then
              ⟨replaceFirst "text-".toList "border-".toList zc.text.toList⟩
            else "border-slate-500"
          match lookupStr tailwindBorderMap classKey with
          | some hex => hex
          | none => getHexBorderFallback zone
      | none => getHexBorderFallback zone
  | none => getHexBorderFallback zone

/-- JavaScript `Math.sign`. -/
def jsSign (q : ℚ) : ℚ := if 0 < q then 1 else if q < 0 then -1 else 0

/-- Force contribution of room `b` on room `a` in one physics tick
(`applyMagneticPhysics`, `src/utils/exportSystem.ts` part lines 698-768):
constant-magnitude attraction towards same-zone rooms plus overlap
repulsion along the axis of smaller overlap.  `sq` models the opaque host
function `Math.sqrt`; no claim depends on its values. -/
def pairForce (sq : ℚ → ℚ) (a b : Room) : ℚ × ℚ :=
  let dx := (b.x + b.width / 2) - (a.x + a.width / 2)
  let dy := (b.y + b.height / 2) - (a.y + a.height / 2)
  let dist := sq (dx * dx + dy * dy)
  if dist = 0 then (0, 0)
  else
    let dirX := dx / dist
    let dirY := dy / dist
    let ax := if a.zone = b.zone then dirX * (1/2) else 0
    let ay := if a.zone = b.zone then dirY * (1/2) else 0
    let overlapX := (a.width / 2 + b.width / 2) - |dx|
    let overlapY := (a.height / 2 + b.height / 2) - |dy|
    if |dx| < (a.width + b.width) / 2 ∧ |dy| < (a.height + b.height) / 2 then
      if overlapX < overlapY then (ax - jsSign dx * 2 * overlapX, ay)
      else (ax, ay - jsSign dy * 2 * overlapY)
    else (ax, ay)

/-- Accumulated force on the room at index `i` over all other placed rooms
of the same floor, read from the current (partially updated) list. -/
def computeForce (sq : ℚ → ℚ) (cur : List Room) (i : ℕ) (a : Room) : ℚ × ℚ :=
  cur.enum.foldl
    (fun f jb =>
      if jb.1 = i then f
      else if jb.2.isPlaced = false ∨ a.floor ≠ jb.2.floor then f
      else
        let pf := pairForce sq a jb.2
        (f.1 + pf.1, f.2 + pf.2)) (0, 0)

/-- One iteration of the outer loop of `applyMagneticPhysics`: skip
unplaced rooms; move the room by the accumulated force when it exceeds the
0.1 epsilon, recording that something moved. -/
def magneticStep (sq : ℚ → ℚ) (st : List Room × Bool) (i : ℕ) :
    List Room × Bool :=
  match st.1.get? i with
  | none => st
  | some a =>
      if a.isPlaced = false then st
      else
        let f := computeForce sq st.1 i a
        if 1/10 < |f.1| ∨ 1/10 < |f.2| then
          (st.1.set i { a with x := a.x + f.1, y := a.y + f.2 }, true)
        else st

/-- Translated from `applyMagneticPhysics`: clone the rooms, sequentially
update each placed room in place, and return the original array when
nothing moved. -/
def applyMagneticPhysics (sq : ℚ → ℚ) (rooms : List Room) : List Room :=
  let res := (List.range rooms.length).foldl (magneticStep sq) (rooms, false)
  if res.2 then res.1 else rooms

instance : Inhabited Room :=
  ⟨⟨"", "", "", 0, 0, 0, 0, 0, false, 0, none⟩⟩

/-- Equality of all `Room` fields other than the position `x`, `y`; used to
state the frame condition of the physics pass. -/
def NonXYEq (a b : Room) : Prop :=
  a.id = b.id ∧ a.name = b.name ∧ a.zone = b.zone ∧ a.area = b.area
    ∧ a.width = b.width ∧ a.height = b.height ∧ a.isPlaced = b.isPlaced
    ∧ a.floor = b.floor ∧ a.polygon = b.polygon

/-- Non-strict lexicographic order on points (as a proposition); this is
the order realised by the JS sort comparator of `getConvexHull`. -/
def LexLeP (a b : Point) : Prop :=
  a.x < b.x ∨ (a.x = b.x ∧ a.y ≤ b.y)

instance (a b : Point) : Decidable (LexLeP a b) := by
  unfold LexLeP
  infer_instance

instance (a b : Point) : Decidable (LexLt a b) := by
  unfold LexLt
  infer_instance

instance : IsAntisymm Point LexLeP :=
  ⟨by
    intro a b h1 h2
    unfold LexLeP at h1 h2
    cases a
    cases b
    simp only [Point.mk.injEq]
    constructor <;> rcases h1 with h1 | ⟨h1, h1'⟩ <;>
      rcases h2 with h2 | ⟨h2, h2'⟩ <;> simp only at * <;> linarith⟩

/-- Point negation, used to transfer lower-chain facts to the upper chain
(the upper chain processes the points in reverse lexicographic order, which
is forward lexicographic order of the negated points, and `cross` is
invariant under simultaneous negation). -/
def negP (p : Point) : Point := ⟨-p.x, -p.y⟩

/-- Local strict convexity of a hull stack stored head-first (head = most
recently pushed): every three consecutive stack entries, read from the
bottom upwards, make a strictly counter-clockwise turn. -/
def Conv3 : List Point → Prop
  | c :: b :: a :: rest => 0 < cross a b c ∧ Conv3 (b :: a :: rest)
  | _ => True

/-- Invariant of the chain-building pass: after processing `processed`, the
stack (head-first) is a reversed subsequence of the processed points, its
top is the last processed point and its bottom the first, it is locally
strictly convex, and every processed point lies weakly to the left of every
stack edge. -/
def ChainInv (processed st : List Point) : Prop :=
  st.reverse.Sublist processed
  ∧ st.head? = processed.getLast?
  ∧ st.getLast? = processed.head?
  ∧ Conv3 st
  ∧ ∀ q ∈ processed, List.Chain' (fun u v => 0 ≤ cross v u q) st

/-- Forward local strict convexity: every three consecutive points of the
list, in the stored order, make a strictly counter-clockwise turn.  Applied
to the cyclic closure `h ++ h.take 2` of a hull `h` this is the spec-side
reading of the claim that the hull lists its vertices in strictly convex
counter-clockwise order, excluding collinear boundary points. -/
def ConvF : List Point → Prop
  | a :: b :: c :: rest => 0 < cross a b c ∧ ConvF (b :: c :: rest)
  | _ => True

/-- Splitting form of `ConvF`: every decomposition of the list that exposes
three consecutive elements yields a strictly counter-clockwise turn. -/
def StrictTurns (l : List Point) : Prop :=
  ∀ pre (a b c : Point) post, l = pre ++ a :: b :: c :: post → 0 < cross a b c

/-- Body of `getConvexHull` after the sort: both chains are built, the last
element of each chain is dropped and the chains are concatenated.
`getConvexHull` equals `hullS` of the lexicographically sorted input
whenever the input has at least two points. -/
def hullS (s : List Point) : List Point :=
  ((buildChain s).reverse).dropLast ++ ((buildChain s.reverse).reverse).dropLast

-- ===================================================================
-- Theorems
-- ===================================================================

theorem shoelace_foldl (points : List Point) (l : List ℕ) (c : ℚ) :
    l.foldl
      (fun acc i =>
        acc + (points.getD i default).x * (points.getD ((i + 1) % points.length) default).y
            - (points.getD ((i + 1) % points.length) default).x * (points.getD i default).y) c
      = c + (l.map (shoelaceTerm points)).sum := by
  induction l generalizing c with
  | nil => simp
  | cons a tl ih =>
      simp only [List.foldl_cons, List.map_cons, List.sum_cons, ih, shoelaceTerm]
      ring

theorem list_range_map_sum (f : ℕ → ℚ) (n : ℕ) :
    ((List.range n).map f).sum = ∑ i ∈ Finset.range n, f i := by
  induction n with
  | zero => simp
  | succ m ih =>
      rw [List.range_succ, List.map_append, List.sum_append,
        Finset.sum_range_succ, ih]
      simp

theorem calculatePolygonArea_eq (points : List Point) (ppm : ℚ) :
    calculatePolygonArea points ppm = |shoelaceSpecSum points| / 2 / (ppm * ppm) := by
  unfold calculatePolygonArea shoelaceSpecSum
  rw [shoelace_foldl, list_range_map_sum, zero_add]

theorem getD_reverse (l : List Point) (i : ℕ) (h : i < l.length) :
    l.reverse.getD i default = l.getD (l.length - 1 - i) default := by
  have h' : i < l.reverse.length := by rwa [List.length_reverse]
  have h'' : l.length - 1 - i < l.length := by omega
  rw [List.getD_eq_getElem l.reverse default h', List.getD_eq_getElem l default h'',
    List.getElem_reverse]

theorem shoelaceTerm_reverse (points : List Point) (i : ℕ) (hi : i < points.length) :
    shoelaceTerm points.reverse i
      = -(shoelaceTerm points
          (if i = points.length - 1 then points.length - 1 else points.length - 2 - i)) := by
  have hn : 0 < points.length := by omega
  unfold shoelaceTerm
  rw [List.length_reverse]
  by_cases hlast : i = points.length - 1
  · have e1 : (i + 1) % points.length = 0 := by
      rw [hlast]; rw [Nat.sub_add_cancel hn, Nat.mod_self]
    have e2 : points.length - 1 - i = 0 := by omega
    have e3 : (points.length - 1 + 1) % points.length = 0 := by
      rw [Nat.sub_add_cancel hn, Nat.mod_self]
    rw [e1, getD_reverse points i hi, getD_reverse points 0 hn, e2,
      Nat.sub_zero, if_pos hlast, e3]
    ring
  · have hi' : i + 1 < points.length := by omega
    have e1 : (i + 1) % points.length = i + 1 := Nat.mod_eq_of_lt hi'
    have e4 : points.length - 1 - (i + 1) = points.length - 2 - i := by omega
    have e5 : (points.length - 2 - i + 1) % points.length = points.length - 1 - i := by
      have : points.length - 2 - i + 1 = points.length - 1 - i := by omega
      rw [this]; exact Nat.mod_eq_of_lt (by omega)
    rw [e1, getD_reverse points i hi, getD_reverse points (i + 1) hi', e4,
      if_neg hlast, e5]
    ring

theorem shoelaceSpecSum_reverse (points : List Point) :
    shoelaceSpecSum points.reverse = -shoelaceSpecSum points := by
  unfold shoelaceSpecSum
  rw [List.length_reverse]
  rcases Nat.eq_zero_or_pos points.length with h0 | hpos
  · simp [h0]
  rw [Finset.sum_congr rfl
    (fun i hi => shoelaceTerm_reverse points i (Finset.mem_range.mp hi)),
    Finset.sum_neg_distrib, neg_inj]
  refine Finset.sum_nbij'
    (fun i => if i = points.length - 1 then points.length - 1 else points.length - 2 - i)
    (fun j => if j = points.length - 1 then points.length - 1 else points.length - 2 - j)
    ?_ ?_ ?_ ?_ ?_
  · intro a ha
    simp only [Finset.mem_range] at ha ⊢
    split <;> omega
  · intro a ha
    simp only [Finset.mem_range] at ha ⊢
    split <;> omega
  · intro a ha
    simp only [Finset.mem_range] at ha
    dsimp only
    by_cases h : a = points.length - 1
    · simp [h]
    · rw [if_neg h]
      have hne : points.length - 2 - a ≠ points.length - 1 := by omega
      rw [if_neg hne]
      omega
  · intro a ha
    simp only [Finset.mem_range] at ha
    dsimp only
    by_cases h : a = points.length - 1
    · simp [h]
    · rw [if_neg h]
      have hne : points.length - 2 - a ≠ points.length - 1 := by omega
      rw [if_neg hne]
      omega
  · intro a _
    rfl

theorem calculatePolygonArea_reverse (points : List Point) (ppm : ℚ) :
    calculatePolygonArea points.reverse ppm = calculatePolygonArea points ppm := by
  rw [calculatePolygonArea_eq, calculatePolygonArea_eq, shoelaceSpecSum_reverse, abs_neg]

theorem shoelaceSpecSum_degenerate (points : List Point) (h : points.length < 3) :
    shoelaceSpecSum points = 0 := by
  unfold shoelaceSpecSum
  interval_cases hlen : points.length
  · simp
  · rw [Finset.sum_range_succ, Finset.sum_range_zero]
    unfold shoelaceTerm
    rw [hlen]
    norm_num
  · rw [Finset.sum_range_succ, Finset.sum_range_succ, Finset.sum_range_zero]
    unfold shoelaceTerm
    rw [hlen]
    norm_num

/-- C1: for every list of points and every positive `pixelsPerMeter`,
`calculatePolygonArea` returns the shoelace sum
`|Σ (x_i·y_{i+1} − x_{i+1}·y_i)| / 2` divided by `pixelsPerMeter²`; the
result is identical for the list and its reversal; and for degenerate input
(fewer than 3 points, or zero shoelace sum) it returns 0 (the function is
total, so it never throws). -/
theorem c1_calculatePolygonArea_shoelace (points : List Point) (ppm : ℚ)
    (_hppm : 0 < ppm) :
    calculatePolygonArea points ppm = |shoelaceSpecSum points| / 2 / (ppm * ppm)
    ∧ calculatePolygonArea points.reverse ppm = calculatePolygonArea points ppm
    ∧ (points.length < 3 → calculatePolygonArea points ppm = 0)
    ∧ (shoelaceSpecSum points = 0 → calculatePolygonArea points ppm = 0) := by
  refine ⟨calculatePolygonArea_eq points ppm, calculatePolygonArea_reverse points ppm,
    fun h => ?_, fun h => ?_⟩
  · rw [calculatePolygonArea_eq, shoelaceSpecSum_degenerate points h]
    simp
  · rw [calculatePolygonArea_eq, h]
    simp

/-- Witness for C1 at a concrete unit square with `pixelsPerMeter = 2`. -/
theorem c1_witness :
    (0 : ℚ) < 2
    ∧ (calculatePolygonArea [⟨0, 0⟩, ⟨4, 0⟩, ⟨4, 4⟩, ⟨0, 4⟩] 2
        = |shoelaceSpecSum [⟨0, 0⟩, ⟨4, 0⟩, ⟨4, 4⟩, ⟨0, 4⟩]| / 2 / (2 * 2)
      ∧ calculatePolygonArea ([⟨0, 0⟩, ⟨4, 0⟩, ⟨4, 4⟩, ⟨0, 4⟩] : List Point).reverse 2
        = calculatePolygonArea [⟨0, 0⟩, ⟨4, 0⟩, ⟨4, 4⟩, ⟨0, 4⟩] 2
      ∧ (([⟨0, 0⟩, ⟨4, 0⟩, ⟨4, 4⟩, ⟨0, 4⟩] : List Point).length < 3 →
          calculatePolygonArea [⟨0, 0⟩, ⟨4, 0⟩, ⟨4, 4⟩, ⟨0, 4⟩] 2 = 0)
      ∧ (shoelaceSpecSum [⟨0, 0⟩, ⟨4, 0⟩, ⟨4, 4⟩, ⟨0, 4⟩] = 0 →
          calculatePolygonArea [⟨0, 0⟩, ⟨4, 0⟩, ⟨4, 4⟩, ⟨0, 4⟩] 2 = 0)) :=
  ⟨by norm_num,
    c1_calculatePolygonArea_shoelace [⟨0, 0⟩, ⟨4, 0⟩, ⟨4, 4⟩, ⟨0, 4⟩] 2 (by norm_num)⟩

theorem handleWheelNewScale_mem (scale deltaY : ℚ) :
    1/10 ≤ handleWheelNewScale scale deltaY ∧ handleWheelNewScale scale deltaY ≤ 5 := by
  unfold handleWheelNewScale
  constructor
  · exact le_min (le_max_left _ _) (by norm_num)
  · exact min_le_right _ _

/-- C3: for every scale in [0.1, 5], offset, cursor point and wheel delta,
the new scale is clamped to [0.1, 5] and the world point under the cursor is
invariant: `screenToWorld` at the cursor computed with the old (scale,
offset) equals the one computed with the new (scale, offset). -/
theorem c3_wheel_zoom_anchored (rectLeft rectTop : ℚ) (offset : Point)
    (scale clientX clientY deltaY : ℚ) (h1 : 1/10 ≤ scale) (_h2 : scale ≤ 5) :
    (1/10 ≤ handleWheelNewScale scale deltaY ∧ handleWheelNewScale scale deltaY ≤ 5)
    ∧ screenToWorld rectLeft rectTop offset scale clientX clientY
      = screenToWorld rectLeft rectTop
          (handleWheelNewOffset rectLeft rectTop offset scale clientX clientY deltaY)
          (handleWheelNewScale scale deltaY) clientX clientY := by
  refine ⟨handleWheelNewScale_mem scale deltaY, ?_⟩
  have hs : scale ≠ 0 := by
    have : (0 : ℚ) < scale := lt_of_lt_of_le (by norm_num) h1
    exact ne_of_gt this
  have hn : handleWheelNewScale scale deltaY ≠ 0 := by
    have : (0 : ℚ) < handleWheelNewScale scale deltaY :=
      lt_of_lt_of_le (by norm_num) (handleWheelNewScale_mem scale deltaY).1
    exact ne_of_gt this
  unfold screenToWorld handleWheelNewOffset
  simp only [Point.mk.injEq]
  constructor
  · field_simp
    ring
  · field_simp
    ring

/-- Witness for C3 at concrete values: scale 1, offset (3, 7), cursor
(100, 50), wheel delta 200. -/
theorem c3_witness :
    ((1 : ℚ)/10 ≤ 1 ∧ (1 : ℚ) ≤ 5)
    ∧ ((1/10 ≤ handleWheelNewScale 1 200 ∧ handleWheelNewScale 1 200 ≤ 5)
      ∧ screenToWorld 0 0 ⟨3, 7⟩ 1 100 50
        = screenToWorld 0 0 (handleWheelNewOffset 0 0 ⟨3, 7⟩ 1 100 50 200)
            (handleWheelNewScale 1 200) 100 50) :=
  ⟨⟨by norm_num, by norm_num⟩,
    c3_wheel_zoom_anchored 0 0 ⟨3, 7⟩ 1 100 50 200 (by norm_num) (by norm_num)⟩

theorem c8_counterexample :
    handleExport ExportFormat.json [] 0 = ExportOutcome.fileProduced
    ∧ ExportOutcome.fileProduced ≠ ExportOutcome.rejectedNotice :=
  ⟨rfl, by decide⟩

/-- C8 (amended): for every export format other than `json`, an export
invocation with zero spaces placed on the current floor is rejected with a
user-facing notice and no file is produced; the `json` branch returns a
full snapshot before the visible-room check. -/
theorem c8_export_rejected (format : ExportFormat) (rooms : List Room) (fl : ℤ)
    (hfmt : format ≠ ExportFormat.json)
    (hempty : ∀ r ∈ rooms, ¬(r.isPlaced = true ∧ r.floor = fl)) :
    handleExport format rooms fl = ExportOutcome.rejectedNotice := by
  have hfil : rooms.filter (fun r => r.isPlaced && decide (r.floor = fl)) = [] := by
    rw [List.filter_eq_nil_iff]
    intro r hr
    have h := hempty r hr
    simp only [Bool.and_eq_true, decide_eq_true_eq]
    tauto
  cases format with
  | json => exact absurd rfl hfmt
  | png => simp [handleExport, hfil]
  | jpeg => simp [handleExport, hfil]
  | svg => simp [handleExport, hfil]
  | dxf => simp [handleExport, hfil]
  | pdf => simp [handleExport, hfil]

/-- Witness for C8 at the `svg` format with an empty document. -/
theorem c8_witness :
    ExportFormat.svg ≠ ExportFormat.json
    ∧ (∀ r ∈ ([] : List Room), ¬(r.isPlaced = true ∧ r.floor = (0 : ℤ)))
    ∧ handleExport ExportFormat.svg [] 0 = ExportOutcome.rejectedNotice :=
  ⟨by decide, by simp, c8_export_rejected ExportFormat.svg [] 0 (by decide) (by simp)⟩

theorem nonXYEq_refl (a : Room) : NonXYEq a a := by
  unfold NonXYEq
  exact ⟨rfl, rfl, rfl, rfl, rfl, rfl, rfl, rfl, rfl⟩

theorem getD_set_self (l : List Room) (i : ℕ) (v : Room) (h : i < l.length) :
    (l.set i v).getD i default = v := by
  rw [List.getD_eq_getElem?_getD, List.getElem?_set]
  simp [h]

theorem getD_set_diff (l : List Room) (i k : ℕ) (v : Room) (h : i ≠ k) :
    (l.set i v).getD k default = l.getD k default := by
  rw [List.getD_eq_getElem?_getD, List.getElem?_set_ne h, ← List.getD_eq_getElem?_getD]

theorem nonXYEq_trans {a b c : Room} (h1 : NonXYEq a b) (h2 : NonXYEq b c) :
    NonXYEq a c := by
  unfold NonXYEq at h1 h2 ⊢
  obtain ⟨e1, e2, e3, e4, e5, e6, e7, e8, e9⟩ := h1
  obtain ⟨f1, f2, f3, f4, f5, f6, f7, f8, f9⟩ := h2
  exact ⟨e1.trans f1, e2.trans f2, e3.trans f3, e4.trans f4, e5.trans f5,
    e6.trans f6, e7.trans f7, e8.trans f8, e9.trans f9⟩

theorem nonXYEq_setXY (a : Room) (u v : ℚ) :
    NonXYEq { a with x := u, y := v } a := by
  unfold NonXYEq
  exact ⟨rfl, rfl, rfl, rfl, rfl, rfl, rfl, rfl, rfl⟩

theorem magneticStep_inv (sq : ℚ → ℚ) (rooms : List Room)
    (st : List Room × Bool)
    (hlen : st.1.length = rooms.length)
    (hinv : ∀ k : ℕ, NonXYEq (st.1.getD k default) (rooms.getD k default)
      ∧ ((rooms.getD k default).isPlaced = false →
          st.1.getD k default = rooms.getD k default))
    (i : ℕ) :
    (magneticStep sq st i).1.length = rooms.length
    ∧ ∀ k : ℕ, NonXYEq ((magneticStep sq st i).1.getD k default) (rooms.getD k default)
      ∧ ((rooms.getD k default).isPlaced = false →
          (magneticStep sq st i).1.getD k default = rooms.getD k default) := by
  unfold magneticStep
  cases hget : st.1.get? i with
  | none => exact ⟨hlen, hinv⟩
  | some a =>
      dsimp only
      by_cases hpl : a.isPlaced = false
      · rw [if_pos hpl]
        exact ⟨hlen, hinv⟩
      · rw [if_neg hpl]
        have hpl' : a.isPlaced = true := by
          cases h : a.isPlaced
          · exact absurd h hpl
          · rfl
        by_cases hmove : 1/10 < |(computeForce sq st.1 i a).1|
            ∨ 1/10 < |(computeForce sq st.1 i a).2|
        · rw [if_pos hmove]
          have hilen : i < st.1.length := by
            by_contra hcon
            rw [List.get?_eq_none.mpr (by omega)] at hget
            cases hget
          have hai : st.1.getD i default = a := by
            rw [List.getD_eq_getElem?_getD, ← List.get?_eq_getElem?, hget]
            rfl
          refine ⟨by simpa [List.length_set] using hlen, fun k => ?_⟩
          by_cases hk : i = k
          · subst hk
            rw [getD_set_self st.1 i _ hilen]
            have hbase := hinv i
            rw [hai] at hbase
            refine ⟨nonXYEq_trans (nonXYEq_setXY a _ _) hbase.1, fun hfalse => ?_⟩
            exfalso
            have h7 : a.isPlaced = (rooms.getD i default).isPlaced :=
              hbase.1.2.2.2.2.2.2.1
            rw [hpl', hfalse] at h7
            exact absurd h7 (by decide)
          · rw [getD_set_diff st.1 i k _ hk]
            exact hinv k
        · rw [if_neg hmove]
          exact ⟨hlen, hinv⟩

theorem magneticFold_inv (sq : ℚ → ℚ) (rooms : List Room) (idxs : List ℕ)
    (st : List Room × Bool)
    (hlen : st.1.length = rooms.length)
    (hinv : ∀ k : ℕ, NonXYEq (st.1.getD k default) (rooms.getD k default)
      ∧ ((rooms.getD k default).isPlaced = false →
          st.1.getD k default = rooms.getD k default)) :
    (idxs.foldl (magneticStep sq) st).1.length = rooms.length
    ∧ ∀ k : ℕ, NonXYEq ((idxs.foldl (magneticStep sq) st).1.getD k default)
        (rooms.getD k default)
      ∧ ((rooms.getD k default).isPlaced = false →
          (idxs.foldl (magneticStep sq) st).1.getD k default = rooms.getD k default) := by
  induction idxs generalizing st with
  | nil => exact ⟨hlen, hinv⟩
  | cons i tl ih =>
      have h := magneticStep_inv sq rooms st hlen hinv i
      exact ih (magneticStep sq st i) h.1 h.2

/-- C10: `applyMagneticPhysics` changes at most the `x` and `y` fields of
rooms with `isPlaced` true; every other field of every room is unchanged,
and rooms with `isPlaced` false are returned entirely unchanged.  The
statement holds for every model `sq` of the opaque `Math.sqrt`; absence of
mutation of the input is inherent to the pure embedding (the function
builds a new list, returning the original one when nothing moved). -/
theorem c10_applyMagneticPhysics_frame (sq : ℚ → ℚ) (rooms : List Room) :
    (applyMagneticPhysics sq rooms).length = rooms.length
    ∧ ∀ k : ℕ,
        NonXYEq ((applyMagneticPhysics sq rooms).getD k default) (rooms.getD k default)
        ∧ ((rooms.getD k default).isPlaced = false →
            (applyMagneticPhysics sq rooms).getD k default = rooms.getD k default) := by
  unfold applyMagneticPhysics
  have h := magneticFold_inv sq rooms (List.range rooms.length) (rooms, false) rfl
    (fun k => ⟨nonXYEq_refl _, fun _ => rfl⟩)
  by_cases hm : ((List.range rooms.length).foldl (magneticStep sq) (rooms, false)).2
  · simp only [hm, if_true]
    exact h
  · simp only [hm, if_false]
    exact ⟨rfl, fun k => ⟨nonXYEq_refl _, fun _ => rfl⟩⟩

/-- Witness for C10 on a one-room document with the room unplaced. -/
theorem c10_witness :
    ((([⟨"a", "A", "Public", 1, 2, 3, 4, 5, false, 0, none⟩] : List Room).getD 0
        default).isPlaced = false)
    ∧ (applyMagneticPhysics (fun _ => 0)
        [⟨"a", "A", "Public", 1, 2, 3, 4, 5, false, 0, none⟩]).getD 0 default
      = ([⟨"a", "A", "Public", 1, 2, 3, 4, 5, false, 0, none⟩] : List Room).getD 0
          default :=
  ⟨by decide,
    ((c10_applyMagneticPhysics_frame (fun _ => 0)
      [⟨"a", "A", "Public", 1, 2, 3, 4, 5, false, 0, none⟩]).2 0).2 (by decide)⟩

/-- C6 (code bug): with grid snapping enabled on a 5 m grid
(`snapPixelUnit = 100` px, one of the grid menu options) and the east
handle dragged by −200 screen px at zoom 1 from a 100 px wide room, the
committed width is 0: the `snap` applied after the `Math.max(minSize, ...)`
clamp rounds the clamped 20 px down to 0, defeating the branch's own
20 px minimum. -/
theorem c6_resize_clamp_defeated :
    (resizeResult ⟨0, 0, 0, 0, 100, 50, []⟩ ResizeHandle.e true 100 1 20 (-200) 0).width = 0
    ∧ ¬(20 ≤ (resizeResult ⟨0, 0, 0, 0, 100, 50, []⟩ ResizeHandle.e true 100 1 20
        (-200) 0).width) := by
  constructor
  · norm_num [resizeResult, snapFn, jsRound]
  · norm_num [resizeResult, snapFn, jsRound]

theorem foldl_max_init (l : List ℚ) (a : ℚ) : a ≤ l.foldl max a := by
  induction l generalizing a with
  | nil => exact le_refl a
  | cons b tl ih => exact le_trans (le_max_left a b) (ih (max a b))

theorem foldl_max_mem (l : List ℚ) (a q : ℚ) (h : q ∈ l) : q ≤ l.foldl max a := by
  induction l generalizing a with
  | nil => cases h
  | cons b tl ih =>
      rcases List.mem_cons.mp h with rfl | hq
      · exact le_trans (le_max_right a q) (foldl_max_init tl (max a q))
      · exact ih (max a b) hq

theorem le_jsMaxList (l : List ℚ) (q : ℚ) (h : q ∈ l) : q ≤ jsMaxList l := by
  cases l with
  | nil => cases h
  | cons b tl =>
      rcases List.mem_cons.mp h with rfl | hq
      · exact foldl_max_init tl q
      · exact foldl_max_mem tl b q hq

theorem commitPolygon_bbox (room : Room) (pts : List Point) (ppm : ℚ) :
    room.width ≤ (commitPolygon room pts ppm).width
    ∧ room.height ≤ (commitPolygon room pts ppm).height
    ∧ (commitPolygon room pts ppm).polygon = some pts
    ∧ ∀ p ∈ pts, p.x ≤ (commitPolygon room pts ppm).width
        ∧ p.y ≤ (commitPolygon room pts ppm).height := by
  refine ⟨le_max_left _ _, le_max_left _ _, rfl, fun p hp => ⟨?_, ?_⟩⟩
  · exact le_trans (le_jsMaxList _ _ (List.mem_map_of_mem (fun q => q.x) hp))
      (le_max_right _ _)
  · exact le_trans (le_jsMaxList _ _ (List.mem_map_of_mem (fun q => q.y) hp))
      (le_max_right _ _)

/-- C7 (amended): after any polygon vertex or edge drag update, the stored
width and height are each at least every coordinate of the new vertex list
(the axis-aligned extent measured from the shape's local origin), and
neither is ever smaller than its value before the edit. -/
theorem c7_bbox_monotone (room : Room) (st : DragStart) (env : DragEnv)
    (idx : ℕ) (ppm clientX clientY : ℚ) :
    (room.width ≤ (vertexDragCommit room st env idx ppm clientX clientY).width
      ∧ room.height ≤ (vertexDragCommit room st env idx ppm clientX clientY).height
      ∧ ∀ pts, (vertexDragCommit room st env idx ppm clientX clientY).polygon = some pts →
          ∀ p ∈ pts, p.x ≤ (vertexDragCommit room st env idx ppm clientX clientY).width
            ∧ p.y ≤ (vertexDragCommit room st env idx ppm clientX clientY).height)
    ∧ (room.width ≤ (edgeDragCommit room st env idx ppm clientX clientY).width
      ∧ room.height ≤ (edgeDragCommit room st env idx ppm clientX clientY).height
      ∧ ∀ pts, (edgeDragCommit room st env idx ppm clientX clientY).polygon = some pts →
          ∀ p ∈ pts, p.x ≤ (edgeDragCommit room st env idx ppm clientX clientY).width
            ∧ p.y ≤ (edgeDragCommit room st env idx ppm clientX clientY).height) := by
  constructor
  · have h := commitPolygon_bbox room (vertexNewPoints room st env idx clientX clientY) ppm
    refine ⟨h.1, h.2.1, fun pts hpts p hp => ?_⟩
    have : pts = vertexNewPoints room st env idx clientX clientY := by
      have := h.2.2.1
      rw [show vertexDragCommit room st env idx ppm clientX clientY
        = commitPolygon room (vertexNewPoints room st env idx clientX clientY) ppm
        from rfl] at hpts
      rw [this] at hpts
      exact (Option.some.injEq _ _ ▸ hpts).symm
    subst this
    exact h.2.2.2 p hp
  · have h := commitPolygon_bbox room (edgeNewPoints st env idx clientX clientY) ppm
    refine ⟨h.1, h.2.1, fun pts hpts p hp => ?_⟩
    have : pts = edgeNewPoints st env idx clientX clientY := by
      have := h.2.2.1
      rw [show edgeDragCommit room st env idx ppm clientX clientY
        = commitPolygon room (edgeNewPoints st env idx clientX clientY) ppm
        from rfl] at hpts
      rw [this] at hpts
      exact (Option.some.injEq _ _ ▸ hpts).symm
    subst this
    exact h.2.2.2 p hp

/-- C7 counterexample: dragging vertex 0 of the unit 10×10 square polygon
(bounding box 20×20) by −50 world px in x, with grid snap off and no other
rooms, yields a polygon of x-extent 60 while the stored width stays 20: the
code grows the width only to `Math.max(...xs)`, not to `max xs − min xs`,
so for a vertex dragged to negative local x the stored width is smaller
than the polygon's axis-aligned extent. -/
theorem c7_counterexample :
    (vertexDragCommit ⟨"r", "R", "Public", 1, 0, 0, 20, 20, true, 0,
        some [⟨0, 0⟩, ⟨10, 0⟩, ⟨10, 10⟩, ⟨0, 10⟩]⟩
      ⟨0, 0, 0, 0, 20, 20, [⟨0, 0⟩, ⟨10, 0⟩, ⟨10, 10⟩, ⟨0, 10⟩]⟩
      ⟨1, false, 20, []⟩ 0 20 (-50) 0).polygon
      = some [⟨-50, 0⟩, ⟨10, 0⟩, ⟨10, 10⟩, ⟨0, 10⟩]
    ∧ (vertexDragCommit ⟨"r", "R", "Public", 1, 0, 0, 20, 20, true, 0,
        some [⟨0, 0⟩, ⟨10, 0⟩, ⟨10, 10⟩, ⟨0, 10⟩]⟩
      ⟨0, 0, 0, 0, 20, 20, [⟨0, 0⟩, ⟨10, 0⟩, ⟨10, 10⟩, ⟨0, 10⟩]⟩
      ⟨1, false, 20, []⟩ 0 20 (-50) 0).width = 20
    ∧ jsMaxList ([⟨-50, 0⟩, ⟨10, 0⟩, ⟨10, 10⟩, ⟨0, 10⟩].map (fun p : Point => p.x))
        - jsMinList ([⟨-50, 0⟩, ⟨10, 0⟩, ⟨10, 10⟩, ⟨0, 10⟩].map (fun p : Point => p.x))
        = 60
    ∧ ¬(60 ≤ (vertexDragCommit ⟨"r", "R", "Public", 1, 0, 0, 20, 20, true, 0,
        some [⟨0, 0⟩, ⟨10, 0⟩, ⟨10, 10⟩, ⟨0, 10⟩]⟩
      ⟨0, 0, 0, 0, 20, 20, [⟨0, 0⟩, ⟨10, 0⟩, ⟨10, 10⟩, ⟨0, 10⟩]⟩
      ⟨1, false, 20, []⟩ 0 20 (-50) 0).width) := by
  refine ⟨?_, ?_, ?_, ?_⟩ <;>
    norm_num [vertexDragCommit, vertexNewPoints, commitPolygon, getSnapTargets,
      calculateSmartSnap, List.find?, List.enum, List.enumFrom, List.filterMap,
      jsMaxList, jsMinList, jsRound]

/-- Witness for C7 on a concrete vertex drag. -/
theorem c7_witness :
    (vertexDragCommit ⟨"r", "R", "Public", 1, 0, 0, 20, 20, true, 0,
        some [⟨0, 0⟩, ⟨10, 0⟩]⟩ ⟨0, 0, 0, 0, 20, 20, [⟨0, 0⟩, ⟨10, 0⟩]⟩
        ⟨1, false, 20, []⟩ 0 20 30 0).polygon = some [⟨30, 0⟩, ⟨10, 0⟩]
    ∧ (20 : ℚ) ≤ (vertexDragCommit ⟨"r", "R", "Public", 1, 0, 0, 20, 20, true, 0,
        some [⟨0, 0⟩, ⟨10, 0⟩]⟩ ⟨0, 0, 0, 0, 20, 20, [⟨0, 0⟩, ⟨10, 0⟩]⟩
        ⟨1, false, 20, []⟩ 0 20 30 0).width
    ∧ (30 : ℚ) ≤ (vertexDragCommit ⟨"r", "R", "Public", 1, 0, 0, 20, 20, true, 0,
        some [⟨0, 0⟩, ⟨10, 0⟩]⟩ ⟨0, 0, 0, 0, 20, 20, [⟨0, 0⟩, ⟨10, 0⟩]⟩
        ⟨1, false, 20, []⟩ 0 20 30 0).width :=
  ⟨by norm_num [vertexDragCommit, vertexNewPoints, commitPolygon, getSnapTargets,
      calculateSmartSnap, List.find?, List.enum, List.enumFrom, List.filterMap,
      jsMaxList, jsMinList, jsRound],
    (c7_bbox_monotone ⟨"r", "R", "Public", 1, 0, 0, 20, 20, true, 0,
        some [⟨0, 0⟩, ⟨10, 0⟩]⟩ ⟨0, 0, 0, 0, 20, 20, [⟨0, 0⟩, ⟨10, 0⟩]⟩
        ⟨1, false, 20, []⟩ 0 20 30 0).1.1,
    ((c7_bbox_monotone ⟨"r", "R", "Public", 1, 0, 0, 20, 20, true, 0,
        some [⟨0, 0⟩, ⟨10, 0⟩]⟩ ⟨0, 0, 0, 0, 20, 20, [⟨0, 0⟩, ⟨10, 0⟩]⟩
        ⟨1, false, 20, []⟩ 0 20 30 0).1.2.2 [⟨30, 0⟩, ⟨10, 0⟩]
      (by norm_num [vertexDragCommit, vertexNewPoints, commitPolygon, getSnapTargets,
      calculateSmartSnap, List.find?, List.enum, List.enumFrom, List.filterMap,
      jsMaxList, jsMinList, jsRound])
      ⟨30, 0⟩ (by norm_num)).1⟩

theorem setPos_setPos (r : Room) (p q : ℚ × ℚ) :
    setPos (setPos r p) q = setPos r q := rfl

theorem applyMoves_setPos (s : DragStart) (env : DragEnv) (room : Room)
    (es : List (ℚ × ℚ)) (p : ℚ × ℚ) :
    setPos (applyMoves s env room es) p = setPos room p := by
  induction es generalizing room with
  | nil => rfl
  | cons e tl ih =>
      unfold applyMoves at ih ⊢
      rw [List.foldl_cons]
      rw [ih (setPos room (dragPosition s env e.1 e.2))]
      rfl

theorem applyMoves_last (s : DragStart) (env : DragEnv) (room : Room)
    (es : List (ℚ × ℚ)) (e : ℚ × ℚ) :
    applyMoves s env room (es ++ [e]) = setPos room (dragPosition s env e.1 e.2) := by
  unfold applyMoves
  rw [List.foldl_append]
  exact applyMoves_setPos s env room es (dragPosition s env e.1 e.2)

theorem dragPosition_nosnap (s : DragStart) (env : DragEnv) (cx cy : ℚ)
    (hsnap : env.snapEnabled = false) (hrooms : env.otherRooms = []) :
    dragPosition s env cx cy
      = (s.roomX + (cx - s.startX) / env.zoomScale,
         s.roomY + (cy - s.startY) / env.zoomScale) := by
  unfold dragPosition dragAxis snapScan dragCands dragTargetsX dragTargetsY snapFn
  rw [hrooms, hsnap]
  simp

theorem snapScan_none (cands : List SnapCand) (threshold : ℚ)
    (h : ∀ c ∈ cands, threshold ≤ candDiff c) :
    snapScan cands threshold = (threshold, none) := by
  unfold snapScan
  induction cands with
  | nil => rfl
  | cons c tl ih =>
      rw [List.foldl_cons]
      have hc : ¬(candDiff c < threshold) := not_lt.mpr (h c (List.mem_cons_self c tl))
      have hstep : scanStep (threshold, none) c = (threshold, none) := by
        unfold scanStep
        dsimp only
        rw [if_neg hc]
      rw [hstep]
      exact ih fun c2 hc2 => h c2 (List.mem_cons_of_mem c hc2)

theorem dragAxis_some (b : Bool) (unit threshold raw size : ℚ)
    (targets : List ℚ) (v : ℚ)
    (h : (snapScan (dragCands raw size targets) threshold).2 = some v) :
    dragAxis b unit threshold raw size targets = v := by
  unfold dragAxis
  rw [h]

theorem dragAxis_none (b : Bool) (unit threshold raw size : ℚ)
    (targets : List ℚ)
    (h : (snapScan (dragCands raw size targets) threshold).2 = none) :
    dragAxis b unit threshold raw size targets = snapFn b unit raw := by
  unfold dragAxis
  rw [h]

theorem dragPosition_delta (s : DragStart) (env : DragEnv) (dx dy : ℚ) :
    dragPosition s env (s.startX + dx) (s.startY + dy)
      = (dragAxis env.snapEnabled env.snapPixelUnit (10 / env.zoomScale)
           (s.roomX + dx / env.zoomScale) s.roomW (dragTargetsX env.otherRooms),
         dragAxis env.snapEnabled env.snapPixelUnit (10 / env.zoomScale)
           (s.roomY + dy / env.zoomScale) s.roomH (dragTargetsY env.otherRooms)) := by
  unfold dragPosition
  dsimp only
  rw [show s.startX + dx - s.startX = dx from by ring,
    show s.startY + dy - s.startY = dy from by ring]

/-- C4 (amended): during a whole-shape drag the final position is a pure
function of the start-of-gesture snapshot and the last event's cumulative
pointer delta, unconditionally: any two event sequences with the same last
event produce the same final state, and that state overwrites the position
with `dragPosition` of the snapshot and the last event.  Per axis, when the
object-snap scan finds a candidate the committed coordinate is exactly the
snapped value; when it finds none the committed coordinate is the grid
snap of the raw value (which is the raw value itself when grid snapping is
disabled).  Consequently, when grid snapping is disabled and no object-snap
candidate lies within the threshold `10 / zoomScale` on either axis, the
final position is exactly `(x0 + dx/scale, y0 + dy/scale)`. -/
theorem c4_drag_determinism (s : DragStart) (env : DragEnv) (room : Room)
    (es1 es2 : List (ℚ × ℚ)) (e : ℚ × ℚ) (dx dy : ℚ)
    (he : e = (s.startX + dx, s.startY + dy)) :
    applyMoves s env room (es1 ++ [e]) = applyMoves s env room (es2 ++ [e])
    ∧ applyMoves s env room (es1 ++ [e])
        = setPos room (dragPosition s env (s.startX + dx) (s.startY + dy))
    ∧ (∀ v, (snapScan (dragCands (s.roomX + dx / env.zoomScale) s.roomW
          (dragTargetsX env.otherRooms)) (10 / env.zoomScale)).2 = some v →
        (applyMoves s env room (es1 ++ [e])).x = v)
    ∧ (∀ v, (snapScan (dragCands (s.roomY + dy / env.zoomScale) s.roomH
          (dragTargetsY env.otherRooms)) (10 / env.zoomScale)).2 = some v →
        (applyMoves s env room (es1 ++ [e])).y = v)
    ∧ ((snapScan (dragCands (s.roomX + dx / env.zoomScale) s.roomW
          (dragTargetsX env.otherRooms)) (10 / env.zoomScale)).2 = none →
        (applyMoves s env room (es1 ++ [e])).x
          = snapFn env.snapEnabled env.snapPixelUnit (s.roomX + dx / env.zoomScale))
    ∧ ((snapScan (dragCands (s.roomY + dy / env.zoomScale) s.roomH
          (dragTargetsY env.otherRooms)) (10 / env.zoomScale)).2 = none →
        (applyMoves s env room (es1 ++ [e])).y
          = snapFn env.snapEnabled env.snapPixelUnit (s.roomY + dy / env.zoomScale))
    ∧ (env.snapEnabled = false →
        (∀ c ∈ dragCands (s.roomX + dx / env.zoomScale) s.roomW
            (dragTargetsX env.otherRooms), 10 / env.zoomScale ≤ candDiff c) →
        (∀ c ∈ dragCands (s.roomY + dy / env.zoomScale) s.roomH
            (dragTargetsY env.otherRooms), 10 / env.zoomScale ≤ candDiff c) →
        applyMoves s env room (es1 ++ [e])
          = { room with x := s.roomX + dx / env.zoomScale,
                        y := s.roomY + dy / env.zoomScale }) := by
  have hlast : applyMoves s env room (es1 ++ [e])
      = setPos room (dragPosition s env (s.startX + dx) (s.startY + dy)) := by
    rw [applyMoves_last, he]
  have hdp := dragPosition_delta s env dx dy
  refine ⟨?_, hlast, ?_, ?_, ?_, ?_, ?_⟩
  · rw [applyMoves_last, applyMoves_last]
  · intro v hv
    rw [hlast]
    show (dragPosition s env (s.startX + dx) (s.startY + dy)).1 = v
    rw [hdp]
    exact dragAxis_some _ _ _ _ _ _ v hv
  · intro v hv
    rw [hlast]
    show (dragPosition s env (s.startX + dx) (s.startY + dy)).2 = v
    rw [hdp]
    exact dragAxis_some _ _ _ _ _ _ v hv
  · intro hv
    rw [hlast]
    show (dragPosition s env (s.startX + dx) (s.startY + dy)).1 = _
    rw [hdp]
    exact dragAxis_none _ _ _ _ _ _ hv
  · intro hv
    rw [hlast]
    show (dragPosition s env (s.startX + dx) (s.startY + dy)).2 = _
    rw [hdp]
    exact dragAxis_none _ _ _ _ _ _ hv
  · intro hsnap hx hy
    rw [hlast, hdp]
    have hxnone : (snapScan (dragCands (s.roomX + dx / env.zoomScale) s.roomW
        (dragTargetsX env.otherRooms)) (10 / env.zoomScale)).2 = none := by
      rw [snapScan_none _ _ hx]
    have hynone : (snapScan (dragCands (s.roomY + dy / env.zoomScale) s.roomH
        (dragTargetsY env.otherRooms)) (10 / env.zoomScale)).2 = none := by
      rw [snapScan_none _ _ hy]
    unfold setPos
    rw [dragAxis_none _ _ _ _ _ _ hxnone, dragAxis_none _ _ _ _ _ _ hynone]
    unfold snapFn
    rw [hsnap]
    simp

/-- C4 counterexample: a single move of +30 screen px at zoom 1 with grid
snapping enabled on a 50 px grid commits x = 50, not the
`x0 + dx/scale = 30` the claim states. -/
theorem c4_counterexample :
    (applyMoves ⟨0, 0, 0, 0, 20, 20, []⟩ ⟨1, true, 50, []⟩
        ⟨"r", "R", "Public", 1, 0, 0, 20, 20, true, 0, none⟩ [(30, 0)]).x = 50
    ∧ (0 : ℚ) + 30 / 1 = 30
    ∧ (50 : ℚ) ≠ 30 := by
  refine ⟨?_, by norm_num, by norm_num⟩
  norm_num [applyMoves, setPos, dragPosition, dragAxis, dragCands, dragTargetsX,
    dragTargetsY, snapScan, snapFn, jsRound, List.flatMap]

/-- Witness for C4: two different event sequences ending in the same event. -/
theorem c4_witness :
    (((10 : ℚ), (6 : ℚ)) = ((0 : ℚ) + 10, (0 : ℚ) + 6))
    ∧ (applyMoves ⟨0, 0, 7, 9, 20, 20, []⟩ ⟨2, false, 50, []⟩
          ⟨"r", "R", "Public", 1, 0, 0, 20, 20, true, 0, none⟩ ([(5, 5)] ++ [(10, 6)])
        = applyMoves ⟨0, 0, 7, 9, 20, 20, []⟩ ⟨2, false, 50, []⟩
          ⟨"r", "R", "Public", 1, 0, 0, 20, 20, true, 0, none⟩
          ([(1, 1), (2, 2), (3, 3)] ++ [(10, 6)])
      ∧ applyMoves ⟨0, 0, 7, 9, 20, 20, []⟩ ⟨2, false, 50, []⟩
          ⟨"r", "R", "Public", 1, 0, 0, 20, 20, true, 0, none⟩ ([(5, 5)] ++ [(10, 6)])
          = setPos ⟨"r", "R", "Public", 1, 0, 0, 20, 20, true, 0, none⟩
              (dragPosition ⟨0, 0, 7, 9, 20, 20, []⟩ ⟨2, false, 50, []⟩ (0 + 10) (0 + 6))
      ∧ (∀ v, (snapScan (dragCands (7 + 10 / 2) 20 (dragTargetsX [])) (10 / 2)).2
            = some v →
          (applyMoves ⟨0, 0, 7, 9, 20, 20, []⟩ ⟨2, false, 50, []⟩
            ⟨"r", "R", "Public", 1, 0, 0, 20, 20, true, 0, none⟩
            ([(5, 5)] ++ [(10, 6)])).x = v)
      ∧ (∀ v, (snapScan (dragCands (9 + 6 / 2) 20 (dragTargetsY [])) (10 / 2)).2
            = some v →
          (applyMoves ⟨0, 0, 7, 9, 20, 20, []⟩ ⟨2, false, 50, []⟩
            ⟨"r", "R", "Public", 1, 0, 0, 20, 20, true, 0, none⟩
            ([(5, 5)] ++ [(10, 6)])).y = v)
      ∧ ((snapScan (dragCands (7 + 10 / 2) 20 (dragTargetsX [])) (10 / 2)).2 = none →
          (applyMoves ⟨0, 0, 7, 9, 20, 20, []⟩ ⟨2, false, 50, []⟩
            ⟨"r", "R", "Public", 1, 0, 0, 20, 20, true, 0, none⟩
            ([(5, 5)] ++ [(10, 6)])).x = snapFn false 50 (7 + 10 / 2))
      ∧ ((snapScan (dragCands (9 + 6 / 2) 20 (dragTargetsY [])) (10 / 2)).2 = none →
          (applyMoves ⟨0, 0, 7, 9, 20, 20, []⟩ ⟨2, false, 50, []⟩
            ⟨"r", "R", "Public", 1, 0, 0, 20, 20, true, 0, none⟩
            ([(5, 5)] ++ [(10, 6)])).y = snapFn false 50 (9 + 6 / 2))
      ∧ (false = false →
          (∀ c ∈ dragCands (7 + 10 / 2) 20 (dragTargetsX []), 10 / 2 ≤ candDiff c) →
          (∀ c ∈ dragCands (9 + 6 / 2) 20 (dragTargetsY []), 10 / 2 ≤ candDiff c) →
          applyMoves ⟨0, 0, 7, 9, 20, 20, []⟩ ⟨2, false, 50, []⟩
            ⟨"r", "R", "Public", 1, 0, 0, 20, 20, true, 0, none⟩ ([(5, 5)] ++ [(10, 6)])
            = { (⟨"r", "R", "Public", 1, 0, 0, 20, 20, true, 0, none⟩ : Room) with
                  x := 7 + 10 / 2, y := 9 + 6 / 2 })) :=
  ⟨by norm_num,
    c4_drag_determinism ⟨0, 0, 7, 9, 20, 20, []⟩ ⟨2, false, 50, []⟩
      ⟨"r", "R", "Public", 1, 0, 0, 20, 20, true, 0, none⟩
      [(5, 5)] [(1, 1), (2, 2), (3, 3)] (10, 6) 10 6 (by norm_num)⟩

theorem snapScan_spec (cands : List SnapCand) (t0 : ℚ) :
    ((snapScan cands t0).2 = none →
      (snapScan cands t0).1 = t0 ∧ ∀ c ∈ cands, t0 ≤ candDiff c)
    ∧ (∀ v, (snapScan cands t0).2 = some v →
        ∃ pre c suf, cands = pre ++ c :: suf ∧ v = candVal c
          ∧ (snapScan cands t0).1 = candDiff c ∧ candDiff c < t0
          ∧ (∀ c' ∈ pre, candDiff c < candDiff c')
          ∧ (∀ c' ∈ suf, candDiff c ≤ candDiff c')) := by
  induction cands using List.reverseRecOn with
  | nil =>
      constructor
      · intro _
        exact ⟨rfl, by simp⟩
      · intro v hv
        simp [snapScan] at hv
  | append_singleton l d ih =>
      have hfold : snapScan (l ++ [d]) t0 = scanStep (snapScan l t0) d := by
        unfold snapScan
        rw [List.foldl_append]
        rfl
      by_cases hlt : candDiff d < (snapScan l t0).1
      · have hres : snapScan (l ++ [d]) t0 = (candDiff d, some (candVal d)) := by
          rw [hfold]
          unfold scanStep
          rw [if_pos hlt]
        have hdt0 : candDiff d < t0 ∧ ∀ c' ∈ l, candDiff d < candDiff c' := by
          cases hscan : (snapScan l t0).2 with
          | none =>
              have h := ih.1 hscan
              rw [h.1] at hlt
              exact ⟨hlt, fun c' hc' => lt_of_lt_of_le hlt (h.2 c' hc')⟩
          | some w =>
              obtain ⟨pre, c, suf, hl, _, hm, hct0, hpre, hsuf⟩ := ih.2 w hscan
              rw [hm] at hlt
              refine ⟨lt_trans hlt hct0, fun c' hc' => ?_⟩
              rw [hl] at hc'
              rcases List.mem_append.mp hc' with h1 | h2
              · exact lt_trans hlt (hpre c' h1)
              · rcases List.mem_cons.mp h2 with rfl | h3
                · exact hlt
                · exact lt_of_lt_of_le hlt (hsuf c' h3)
        constructor
        · intro hnone
          rw [hres] at hnone
          simp at hnone
        · intro v hv
          rw [hres] at hv
          have hv' : v = candVal d := by
            have := hv
            simp only [Option.some.injEq] at this
            exact this.symm
          refine ⟨l, d, [], by simp, hv', ?_, hdt0.1, hdt0.2, by simp⟩
          rw [hres]
      · have hres : snapScan (l ++ [d]) t0 = snapScan l t0 := by
          rw [hfold]
          unfold scanStep
          rw [if_neg hlt]
        constructor
        · intro hnone
          rw [hres] at hnone
          have h := ih.1 hnone
          rw [hres]
          refine ⟨h.1, fun c hc => ?_⟩
          rcases List.mem_append.mp hc with h1 | h2
          · exact h.2 c h1
          · rcases List.mem_cons.mp h2 with rfl | h3
            · rw [h.1] at hlt
              exact le_of_not_lt hlt
            · cases h3
        · intro v hv
          rw [hres] at hv
          obtain ⟨pre, c, suf, hl, hv', hm, hct0, hpre, hsuf⟩ := ih.2 v hv
          refine ⟨pre, c, suf ++ [d], ?_, hv', ?_, hct0, hpre, ?_⟩
          · rw [hl]
            simp
          · rw [hres]
            exact hm
          · intro c' hc'
            rcases List.mem_append.mp hc' with h1 | h2
            · exact hsuf c' h1
            · rcases List.mem_cons.mp h2 with rfl | h3
              · rw [hm] at hlt
                exact le_of_not_lt hlt
              · cases h3

/-- C5 (amended): during a whole-shape move, each axis is processed
independently with threshold `10 / zoomScale`; among the object-snap
candidates (leading/center/trailing edges of the moving shape against the
edges of every other room, in iteration order), the NEAREST candidate
within the threshold wins, ties broken by iteration order (the winner's
distance is strictly below every earlier candidate's and at most every
later candidate's); whenever some candidate lies within the threshold the
object-snapped coordinate is used and grid snap is not applied on that
axis, and grid snap applies only when no candidate is within the
threshold. -/
theorem c5_object_snap_nearest (snapEnabled : Bool) (unit threshold raw size : ℚ)
    (targets : List ℚ) :
    ((∃ c ∈ dragCands raw size targets, candDiff c < threshold) →
      ∃ pre c suf, dragCands raw size targets = pre ++ c :: suf
        ∧ candDiff c < threshold
        ∧ (∀ c' ∈ pre, candDiff c < candDiff c')
        ∧ (∀ c' ∈ suf, candDiff c ≤ candDiff c')
        ∧ dragAxis snapEnabled unit threshold raw size targets = candVal c)
    ∧ ((∀ c ∈ dragCands raw size targets, threshold ≤ candDiff c) →
      dragAxis snapEnabled unit threshold raw size targets
        = snapFn snapEnabled unit raw)
    ∧ ∀ (s : DragStart) (env : DragEnv) (cx cy : ℚ),
        dragPosition s env cx cy
          = (dragAxis env.snapEnabled env.snapPixelUnit (10 / env.zoomScale)
              (s.roomX + (cx - s.startX) / env.zoomScale) s.roomW
              (dragTargetsX env.otherRooms),
             dragAxis env.snapEnabled env.snapPixelUnit (10 / env.zoomScale)
              (s.roomY + (cy - s.startY) / env.zoomScale) s.roomH
              (dragTargetsY env.otherRooms)) := by
  refine ⟨?_, ?_, fun s env cx cy => rfl⟩
  · intro hex
    cases hscan : (snapScan (dragCands raw size targets) threshold).2 with
    | none =>
        obtain ⟨c, hc, hlt⟩ := hex
        have h := (snapScan_spec (dragCands raw size targets) threshold).1 hscan
        exact absurd hlt (not_lt.mpr (h.2 c hc))
    | some v =>
        obtain ⟨pre, c, suf, hl, hv, _, hct, hpre, hsuf⟩ :=
          (snapScan_spec (dragCands raw size targets) threshold).2 v hscan
        refine ⟨pre, c, suf, hl, hct, hpre, hsuf, ?_⟩
        unfold dragAxis
        rw [hscan, hv]
  · intro hall
    cases hscan : (snapScan (dragCands raw size targets) threshold).2 with
    | none =>
        unfold dragAxis
        rw [hscan]
    | some v =>
        obtain ⟨pre, c, suf, hl, _, _, hct, _, _⟩ :=
          (snapScan_spec (dragCands raw size targets) threshold).2 v hscan
        have hcmem : c ∈ dragCands raw size targets := by
          rw [hl]
          simp
        exact absurd hct (not_lt.mpr (hall c hcmem))

/-- C5 counterexample: moving a 100 px wide shape at raw x = 0 near a room
at x = 9 of width 182 (targets 9, 100, 191; threshold 10): the first
candidate within the threshold is the leading edge against 9 (distance 9,
snapped value 9), but the code's strict-minimum scan later finds the
trailing edge against 100 (distance 0) and commits 0 instead. -/
theorem c5_counterexample :
    dragAxis false 20 10 0 100
        (dragTargetsX [⟨"b", "B", "Public", 1, 9, 0, 182, 50, true, 0, none⟩]) = 0
    ∧ firstWithinThreshold
        (dragCands 0 100
          (dragTargetsX [⟨"b", "B", "Public", 1, 9, 0, 182, 50, true, 0, none⟩])) 10
      = some 9
    ∧ (0 : ℚ) ≠ 9 := by
  refine ⟨?_, ?_, by norm_num⟩ <;>
    norm_num [dragAxis, snapScan, scanStep, dragCands, dragTargetsX, candDiff,
      candVal, firstWithinThreshold, snapFn, List.flatMap, List.find?]

/-- Witness for C5 at the concrete configuration of the counterexample. -/
theorem c5_witness :
    (∃ c ∈ dragCands 0 100
        (dragTargetsX [⟨"b", "B", "Public", 1, 9, 0, 182, 50, true, 0, none⟩]),
      candDiff c < 10)
    ∧ ∃ pre c suf,
        dragCands 0 100
            (dragTargetsX [⟨"b", "B", "Public", 1, 9, 0, 182, 50, true, 0, none⟩])
          = pre ++ c :: suf
        ∧ candDiff c < 10
        ∧ (∀ c' ∈ pre, candDiff c < candDiff c')
        ∧ (∀ c' ∈ suf, candDiff c ≤ candDiff c')
        ∧ dragAxis false 20 10 0 100
            (dragTargetsX [⟨"b", "B", "Public", 1, 9, 0, 182, 50, true, 0, none⟩])
          = candVal c :=
  ⟨⟨⟨0, 0, 9⟩, by norm_num [dragCands, dragTargetsX, List.flatMap],
      by norm_num [candDiff]⟩,
    (c5_object_snap_nearest false 20 10 0 100
      (dragTargetsX [⟨"b", "B", "Public", 1, 9, 0, 182, 50, true, 0, none⟩])).1
      ⟨⟨0, 0, 9⟩, by norm_num [dragCands, dragTargetsX, List.flatMap],
        by norm_num [candDiff]⟩⟩

/-- C9 counterexample: for the zone label "qqq" (matched by neither
palette tier) the live view resolves the `Default` palette entry
(`bg-slate-100`, i.e. `#f1f5f9` under the export pipeline's own Tailwind
table), while every export format resolves the hash fallback `#01B651`:
the two sides use different functions and produce different colors. -/
theorem c9_counterexample :
    (getZoneStyle "qqq").bg = "bg-slate-100"
    ∧ lookupStr tailwindBgMap "bg-slate-100" = some "#f1f5f9"
    ∧ getHexColorForZone "qqq" ZONE_COLORS = "#01B651"
    ∧ ("#01B651" : String) ≠ "#f1f5f9" := by
  refine ⟨by decide, by decide, by decide, by decide⟩

/-- C9 (amended): the export pipelines share `getHexColorForZone`; for
every exact palette key the exported fill equals the live view's palette
fill (translated through the export pipeline's own Tailwind table), and for
every label matched by neither tier the exported fill is exactly the
deterministic hash color — a pure function of the label string alone,
independent of the zone-colors configuration — and the exported border
falls back to the constant `#64748b`; but the live view resolves colors
with a different function (case-insensitive substring match with `Default`
fallback and no hash), so live and exported colors can disagree for labels
that are not palette keys. -/
theorem c9_color_resolution (z : String) (zcs : List (String × ZoneColor)) :
    (∀ kv ∈ ZONE_COLORS,
      lookupStr tailwindBgMap (getZoneStyle kv.1).bg
        = some (getHexColorForZone kv.1 ZONE_COLORS))
    ∧ (zcLookup zcs z = none → lookupStr standardFillMap z = none →
        getHexColorForZone z zcs = hashColor z)
    ∧ (zcLookup zcs z = none → lookupStr standardBorderMap z = none →
        getHexBorderForZone z (some zcs) = "#64748b") := by
  refine ⟨by decide, fun h1 h2 => ?_, fun h1 h2 => ?_⟩
  · unfold getHexColorForZone
    rw [h1]
    unfold getHexColorFallback
    rw [h2]
  · unfold getHexBorderForZone
    dsimp only
    rw [h1]
    unfold getHexBorderFallback
    rw [h2]

/-- Witness for C9 at the unmatched label "qqq". -/
theorem c9_witness :
    zcLookup ZONE_COLORS "qqq" = none
    ∧ lookupStr standardFillMap "qqq" = none
    ∧ getHexColorForZone "qqq" ZONE_COLORS = hashColor "qqq" :=
  ⟨by decide, by decide,
    (c9_color_resolution "qqq" ZONE_COLORS).2.1 (by decide) (by decide)⟩

theorem cross_cyclic (a b c : Point) : cross a b c = cross b c a := by
  unfold cross
  ring

theorem cross_swap (a b c : Point) : cross a b c = -cross a c b := by
  unfold cross
  ring

theorem cross_self_left (a b : Point) : cross a a b = 0 := by
  unfold cross
  ring

theorem cross_self_mid (a b : Point) : cross a b a = 0 := by
  unfold cross
  ring

theorem cross_self_right (a b : Point) : cross a b b = 0 := by
  unfold cross
  ring

theorem cross_neg_eq (a b c : Point) :
    cross (negP a) (negP b) (negP c) = cross a b c := by
  unfold cross negP
  ring

theorem lexLe_iff (a b : Point) : lexLe a b = true ↔ LexLeP a b := by
  unfold lexLe LexLeP
  constructor
  · intro h
    exact of_decide_eq_true h
  · intro h
    exact decide_eq_true h

theorem lexLeP_total (a b : Point) : LexLeP a b ∨ LexLeP b a := by
  unfold LexLeP
  rcases lt_trichotomy a.x b.x with h | h | h
  · exact Or.inl (Or.inl h)
  · rcases le_total a.y b.y with h' | h'
    · exact Or.inl (Or.inr ⟨h, h'⟩)
    · exact Or.inr (Or.inr ⟨h.symm, h'⟩)
  · exact Or.inr (Or.inl h)

theorem lexLeP_trans {a b c : Point} (h1 : LexLeP a b) (h2 : LexLeP b c) :
    LexLeP a c := by
  unfold LexLeP at *
  rcases h1 with h1 | ⟨h1, h1'⟩ <;> rcases h2 with h2 | ⟨h2, h2'⟩
  · exact Or.inl (lt_trans h1 h2)
  · exact Or.inl (h2 ▸ h1)
  · exact Or.inl (h1 ▸ h2)
  · exact Or.inr ⟨h1.trans h2, le_trans h1' h2'⟩

theorem lexLeP_antisymm {a b : Point} (h1 : LexLeP a b) (h2 : LexLeP b a) :
    a = b :=
  antisymm h1 h2

theorem lexLt_of_le_ne {a b : Point} (h1 : LexLeP a b) (h2 : a ≠ b) :
    LexLt a b := by
  unfold LexLeP at h1
  unfold LexLt
  rcases h1 with h1 | ⟨h1, h1'⟩
  · exact Or.inl h1
  · refine Or.inr ⟨h1, lt_of_le_of_ne h1' fun hy => h2 ?_⟩
    cases a
    cases b
    simp only at h1 hy
    simp [h1, hy]

theorem lexLeP_of_lt {a b : Point} (h : LexLt a b) : LexLeP a b := by
  unfold LexLt at h
  unfold LexLeP
  rcases h with h | ⟨h, h'⟩
  · exact Or.inl h
  · exact Or.inr ⟨h, le_of_lt h'⟩

theorem lexLt_ne {a b : Point} (h : LexLt a b) : a ≠ b := by
  intro he
  subst he
  unfold LexLt at h
  rcases h with h | ⟨_, h⟩ <;> exact absurd h (lt_irrefl _)

theorem lexLeP_refl (a : Point) : LexLeP a a := Or.inr ⟨rfl, le_refl _⟩

theorem lexLeP_x {a b : Point} (h : LexLeP a b) : a.x ≤ b.x := by
  rcases h with h | ⟨h, _⟩
  · exact le_of_lt h
  · exact le_of_eq h

theorem lex_neg_iff (a b : Point) : LexLeP (negP a) (negP b) ↔ LexLeP b a := by
  unfold LexLeP negP
  dsimp only
  constructor
  · rintro (h | ⟨h, h'⟩)
    · exact Or.inl (by linarith)
    · exact Or.inr ⟨by linarith, by linarith⟩
  · rintro (h | ⟨h, h'⟩)
    · exact Or.inl (by linarith)
    · exact Or.inr ⟨by linarith, by linarith⟩

theorem lexLt_neg_iff (a b : Point) : LexLt (negP a) (negP b) ↔ LexLt b a := by
  unfold LexLt negP
  dsimp only
  constructor
  · rintro (h | ⟨h, h'⟩)
    · exact Or.inl (by linarith)
    · exact Or.inr ⟨by linarith, by linarith⟩
  · rintro (h | ⟨h, h'⟩)
    · exact Or.inl (by linarith)
    · exact Or.inr ⟨by linarith, by linarith⟩

theorem chainStep_lemma {a b c p : Point} (hab : LexLeP a b) (hbc : LexLeP b c)
    (hcp : LexLeP c p) (hconv : 0 < cross a b c) (hcov : 0 ≤ cross b c p) :
    0 ≤ cross a b p := by
  have hax : a.x ≤ b.x := lexLeP_x hab
  have hbx : b.x ≤ c.x := lexLeP_x hbc
  have hcx : c.x ≤ p.x := lexLeP_x hcp
  rcases lt_or_eq_of_le hbx with hx | hx
  · have key : (c.x - b.x) * cross a b p
        = cross a b c * (p.x - b.x) - cross b c p * (a.x - b.x) := by
      unfold cross
      ring
    have h7 : 0 ≤ cross a b c * (p.x - b.x) :=
      mul_nonneg (le_of_lt hconv) (by linarith)
    have h8 : cross b c p * (a.x - b.x) ≤ 0 :=
      mul_nonpos_of_nonneg_of_nonpos hcov (by linarith)
    have h9 : 0 ≤ (c.x - b.x) * cross a b p := by
      rw [key]
      linarith
    by_contra hneg
    push_neg at hneg
    nlinarith [h9]
  · have hby : b.y ≤ c.y := by
      rcases hbc with h | ⟨_, h⟩
      · exact absurd hx (ne_of_lt h)
      · exact h
    have hbyne : b.y < c.y := by
      rcases lt_or_eq_of_le hby with h | h
      · exact h
      · exfalso
        have hbceq : b = c := by
          cases b
          cases c
          simp only at hx h
          simp [hx, h]
        rw [hbceq, cross_self_right] at hconv
        exact absurd hconv (lt_irrefl _)
    have hbcp0 : cross b c p = -(c.y - b.y) * (p.x - b.x) := by
      unfold cross
      rw [← hx]
      ring
    have hpxb : p.x = b.x := by
      rw [hbcp0] at hcov
      nlinarith [hcov]
    have hpy : c.y ≤ p.y := by
      rcases hcp with h | ⟨_, h⟩
      · exfalso
        rw [hpxb, hx] at h
        exact absurd h (lt_irrefl _)
      · exact h
    have hbcp00 : cross b c p = 0 := by
      rw [hbcp0, hpxb]
      ring
    have ykey : (c.y - b.y) * cross a b p
        = cross a b c * (p.y - b.y) - cross b c p * (a.y - b.y) := by
      unfold cross
      rw [← hx, hpxb]
      ring
    have h9 : 0 ≤ (c.y - b.y) * cross a b p := by
      rw [ykey, hbcp00]
      nlinarith [hconv]
    by_contra hneg
    push_neg at hneg
    nlinarith [h9]

theorem popchain_lemma {t w q p : Point} (htw : LexLt t w) (htq : LexLeP t q)
    (htp : LexLeP t p) (h1 : 0 ≤ cross t w q) (h2 : cross t w p ≤ 0) :
    0 ≤ cross t p q := by
  have hqx : t.x ≤ q.x := lexLeP_x htq
  have hpx : t.x ≤ p.x := lexLeP_x htp
  have hwx : t.x ≤ w.x := lexLeP_x (lexLeP_of_lt htw)
  have key : (w.x - t.x) * cross t q p
      = (-(cross t w q)) * (p.x - t.x) + cross t w p * (q.x - t.x) := by
    unfold cross
    ring
  have hflip : cross t p q = -(cross t q p) := by
    rw [cross_swap]
  rcases lt_or_eq_of_le hwx with hx | hx
  · have h9 : (w.x - t.x) * cross t q p ≤ 0 := by
      rw [key]
      nlinarith [h1, h2]
    rw [hflip]
    by_contra hneg
    push_neg at hneg
    nlinarith [h9]
  · have hwy : t.y < w.y := by
      rcases htw with h | ⟨_, h⟩
      · exact absurd hx (ne_of_lt h)
      · exact h
    have h1' : cross t w q = -(w.y - t.y) * (q.x - t.x) := by
      unfold cross
      rw [← hx]
      ring
    have hqxt : q.x = t.x := by
      rw [h1'] at h1
      nlinarith [h1]
    have hqy : t.y ≤ q.y := by
      rcases htq with h | ⟨_, h⟩
      · exfalso
        rw [hqxt] at h
        exact absurd h (lt_irrefl _)
      · exact h
    have hgoal : cross t p q = (p.x - t.x) * (q.y - t.y) := by
      unfold cross
      rw [hqxt]
      ring
    rw [hgoal]
    exact mul_nonneg (by linarith) (by linarith)

theorem jloop_lemma {a b q p : Point} (hab : LexLeP a b) (hbq : LexLeP b q)
    (hqp : LexLeP q p) (h1 : cross a b p ≤ 0) (h2 : 0 ≤ cross b p q) :
    0 ≤ cross a p q := by
  have hax : a.x ≤ b.x := lexLeP_x hab
  have hbx : b.x ≤ q.x := lexLeP_x hbq
  have hqx : q.x ≤ p.x := lexLeP_x hqp
  rcases lt_or_eq_of_le (le_trans hbx hqx) with hv | hv
  · have key : (p.x - b.x) * cross a p q
        = (-(cross a b p)) * (p.x - q.x) + cross b p q * (p.x - a.x) := by
      unfold cross
      ring
    have h9 : 0 ≤ (p.x - b.x) * cross a p q := by
      rw [key]
      nlinarith [h1, h2]
    by_contra hneg
    push_neg at hneg
    nlinarith [h9]
  · have hqxb : q.x = b.x := by linarith
    have hpxb : p.x = b.x := hv.symm
    have hby : b.y ≤ q.y := by
      rcases hbq with h | ⟨_, h⟩
      · exfalso
        rw [hqxb] at h
        exact absurd h (lt_irrefl _)
      · exact h
    have hqy : q.y ≤ p.y := by
      rcases hqp with h | ⟨_, h⟩
      · exfalso
        rw [hqxb, hpxb] at h
        exact absurd h (lt_irrefl _)
      · exact h
    have h3 : 0 ≤ (a.x - b.x) * (p.y - b.y) := by
      have hid : -(cross a b p) = (a.x - b.x) * (p.y - b.y)
          - (a.y - b.y) * (p.x - b.x) := by
        unfold cross
        ring
      rw [hpxb] at hid
      nlinarith [h1, hid]
    have h4 : (a.x - b.x) * (p.y - b.y) ≤ 0 :=
      mul_nonpos_of_nonpos_of_nonneg (by linarith) (by linarith)
    have h5 : (a.x - b.x) * (p.y - b.y) = 0 := le_antisymm h4 h3
    have hgoal : cross a p q = (a.x - b.x) * ((p.y - b.y) - (q.y - b.y)) := by
      unfold cross
      rw [hpxb, hqxb]
      ring
    rcases mul_eq_zero.mp h5 with h6 | h6
    · rw [hgoal, h6]
      ring_nf
      exact le_refl 0
    · have hpyb : p.y = b.y := by linarith
      have hqyb : q.y = b.y := by linarith
      rw [hgoal, hpyb, hqyb]
      ring_nf
      exact le_refl 0

theorem coverleft_lemma {s t q p : Point} (hst : LexLt s t) (hqt : LexLeP q t)
    (htp : LexLeP t p) (h1 : 0 ≤ cross s t q) (h2 : 0 ≤ cross s t p) :
    0 ≤ cross t p q := by
  have hsx : s.x ≤ t.x := lexLeP_x (lexLeP_of_lt hst)
  have hqx : q.x ≤ t.x := lexLeP_x hqt
  have hpx : t.x ≤ p.x := lexLeP_x htp
  have key : (s.x - t.x) * cross t q p
      = cross s t q * (p.x - t.x) + (-(cross s t p)) * (q.x - t.x) := by
    unfold cross
    ring
  have hflip : cross t p q = -(cross t q p) := by
    rw [cross_swap]
  rcases lt_or_eq_of_le hsx with hx | hx
  · have h9 : 0 ≤ (s.x - t.x) * cross t q p := by
      rw [key]
      nlinarith [h1, h2]
    rw [hflip]
    by_contra hneg
    push_neg at hneg
    nlinarith [h9]
  · have hsy : s.y < t.y := by
      rcases hst with h | ⟨_, h⟩
      · exact absurd hx (ne_of_lt h)
      · exact h
    have h2' : cross s t p = -((t.y - s.y) * (p.x - t.x)) := by
      unfold cross
      rw [hx]
      ring
    have hpxt : p.x = t.x := by
      by_contra hc
      have hc' : t.x < p.x := lt_of_le_of_ne hpx (fun h => hc h.symm)
      rw [h2'] at h2
      nlinarith [mul_pos (sub_pos.mpr hsy) (sub_pos.mpr hc')]
    have hpy : t.y ≤ p.y := by
      rcases htp with h | ⟨_, h⟩
      · exfalso
        rw [hpxt] at h
        exact absurd h (lt_irrefl _)
      · exact h
    have hgoal : cross t p q = -((q.x - t.x) * (p.y - t.y)) := by
      unfold cross
      rw [hpxt]
      ring
    rw [hgoal]
    nlinarith [mul_nonpos_of_nonpos_of_nonneg (by linarith : q.x - t.x ≤ 0)
      (by linarith : 0 ≤ p.y - t.y)]

theorem popBad_suffix (st : List Point) (p : Point) : popBad st p <:+ st := by
  induction st with
  | nil => simp [popBad]
  | cons b tl ih =>
      cases tl with
      | nil => simp [popBad]
      | cons a rest =>
          unfold popBad
          by_cases hc : cross a b p ≤ 0
          · rw [if_pos hc]
            exact (ih).trans (List.suffix_cons b (a :: rest))
          · rw [if_neg hc]

theorem popBad_ne_nil (st : List Point) (p : Point) (h : st ≠ []) :
    popBad st p ≠ [] := by
  induction st with
  | nil => exact absurd rfl h
  | cons b tl ih =>
      cases tl with
      | nil => simp [popBad]
      | cons a rest =>
          unfold popBad
          by_cases hc : cross a b p ≤ 0
          · rw [if_pos hc]
            exact ih (by simp)
          · rw [if_neg hc]
            simp

theorem popBad_getLast (st : List Point) (p : Point) (h : st ≠ []) :
    (popBad st p).getLast? = st.getLast? := by
  induction st with
  | nil => exact absurd rfl h
  | cons b tl ih =>
      cases tl with
      | nil => simp [popBad]
      | cons a rest =>
          unfold popBad
          by_cases hc : cross a b p ≤ 0
          · rw [if_pos hc]
            rw [ih (by simp)]
            exact (List.getLast?_cons_cons).symm
          · rw [if_neg hc]

theorem popBad_stop (st : List Point) (p : Point) :
    (popBad st p).length ≤ 1
    ∨ ∃ t s rest, popBad st p = t :: s :: rest ∧ 0 < cross s t p := by
  induction st with
  | nil => simp [popBad]
  | cons b tl ih =>
      cases tl with
      | nil => simp [popBad]
      | cons a rest =>
          unfold popBad
          by_cases hc : cross a b p ≤ 0
          · rw [if_pos hc]
            exact ih
          · rw [if_neg hc]
            exact Or.inr ⟨b, a, rest, rfl, not_le.mp hc⟩

theorem conv3_tail (x : Point) (l : List Point) (h : Conv3 (x :: l)) :
    Conv3 l := by
  cases l with
  | nil => trivial
  | cons y tl =>
      cases tl with
      | nil => trivial
      | cons z tl2 => exact h.2

theorem conv3_suffix {l1 l2 : List Point} (h : l1 <:+ l2) (hc : Conv3 l2) :
    Conv3 l1 := by
  obtain ⟨pre, rfl⟩ := h
  induction pre with
  | nil => exact hc
  | cons x tl ih => exact ih (conv3_tail x (tl ++ l1) hc)

theorem chain_cover_down (p : Point) :
    ∀ st : List Point, Conv3 st →
      List.Chain' (fun u v => LexLeP v u) st →
      (∀ x ∈ st, LexLeP x p) →
      (∀ t s rest, st = t :: s :: rest → 0 ≤ cross s t p) →
      List.Chain' (fun u v => 0 ≤ cross v u p) st := by
  intro st
  induction st with
  | nil => intro _ _ _ _; simp
  | cons t tl ih =>
      cases tl with
      | nil => intro _ _ _ _; simp
      | cons s rest =>
          intro hconv hlex hmem htop
          rw [List.chain'_cons]
          refine ⟨htop t s rest rfl, ih (conv3_tail _ _ hconv)
            (List.chain'_cons.mp hlex).2
            (fun x hx => hmem x (List.mem_cons_of_mem t hx)) ?_⟩
          intro t' s' rest' heq
          cases rest with
          | nil =>
              injection heq with _ h2
              exact absurd h2.symm (List.cons_ne_nil s' rest')
          | cons r rest2 =>
              injection heq with h1 h2
              injection h2 with h3 _
              rw [← h1, ← h3]
              have htriple : 0 < cross r s t := hconv.1
              have hlex1 : LexLeP s t := (List.chain'_cons.mp hlex).1
              have hlex2 : LexLeP r s :=
                (List.chain'_cons.mp (List.chain'_cons.mp hlex).2).1
              exact chainStep_lemma hlex2 hlex1 (hmem t (by simp)) htriple
                (htop t s (r :: rest2) rfl)

theorem popBad_new_edge (p q : Point) :
    ∀ st : List Point,
      List.Chain' (fun u v => 0 ≤ cross v u q) st →
      List.Chain' (fun u v => LexLeP v u) st →
      (∀ x ∈ st, LexLeP x p) →
      LexLeP q p →
      (∀ bt, st.getLast? = some bt → LexLeP bt q) →
      (∀ tp, st.head? = some tp →
        (LexLeP q tp ∨ (LexLeP tp q ∧ 0 ≤ cross tp p q))) →
      ∀ t rest', popBad st p = t :: rest' → 0 ≤ cross t p q := by
  intro st
  induction st with
  | nil =>
      intro _ _ _ _ _ _ t rest' h
      simp [popBad] at h
  | cons b tl ih =>
      cases tl with
      | nil =>
          intro _ _ _ _ hbot htopQ t rest' hpop
          have heq : popBad [b] p = [b] := by simp [popBad]
          rw [heq] at hpop
          cases hpop
          rcases htopQ b rfl with hqb | ⟨_, hbpq⟩
          · have hbq : LexLeP b q := hbot b rfl
            have hqeq : q = b := lexLeP_antisymm hqb hbq
            rw [hqeq, cross_self_mid]
          · exact hbpq
      | cons a rest =>
          intro hedgeQ hlex hmemp hqp hbot htopQ t rest' hpop
          unfold popBad at hpop
          by_cases hc : cross a b p ≤ 0
          · rw [if_pos hc] at hpop
            have hedge1 : 0 ≤ cross a b q := (List.chain'_cons.mp hedgeQ).1
            have hlex1 : LexLeP a b := (List.chain'_cons.mp hlex).1
            refine ih (List.chain'_cons.mp hedgeQ).2
              (List.chain'_cons.mp hlex).2
              (fun x hx => hmemp x (List.mem_cons_of_mem b hx)) hqp
              (fun bt hbt => hbot bt (by rwa [List.getLast?_cons_cons]))
              ?_ t rest' hpop
            intro tp htp
            have htpa : tp = a := by
              injection htp with h1
              exact h1.symm
            subst htpa
            rcases htopQ b rfl with hqb | ⟨hbq, hbpq⟩
            · by_cases hqa : LexLeP q tp
              · exact Or.inl hqa
              · have haq : LexLeP tp q := (lexLeP_total q tp).resolve_left hqa
                have hne : tp ≠ b := fun he => hqa (he ▸ hqb)
                exact Or.inr ⟨haq, popchain_lemma (lexLt_of_le_ne hlex1 hne) haq
                  (hmemp tp (by simp)) hedge1 hc⟩
            · refine Or.inr ⟨lexLeP_trans hlex1 hbq, ?_⟩
              exact jloop_lemma hlex1 hbq hqp hc hbpq
          · rw [if_neg hc] at hpop
            cases hpop
            have hcross : 0 < cross a b p := not_le.mp hc
            rcases htopQ b rfl with hqb | ⟨_, hbpq⟩
            · have hlex1 : LexLeP a b := (List.chain'_cons.mp hlex).1
              have hedge1 : 0 ≤ cross a b q := (List.chain'_cons.mp hedgeQ).1
              have hne : a ≠ b := by
                intro he
                rw [he, cross_self_left] at hcross
                exact absurd hcross (lt_irrefl _)
              exact coverleft_lemma (lexLt_of_le_ne hlex1 hne) hqb
                (hmemp b (by simp)) hedge1 (le_of_lt hcross)
            · exact hbpq

theorem sorted_head_le {l : List Point} {h : Point}
    (hs : List.Pairwise LexLeP l) (hh : l.head? = some h) :
    ∀ q ∈ l, LexLeP h q := by
  cases l with
  | nil => cases hh
  | cons a tl =>
      have ha : a = h := by
        injection hh
      subst ha
      intro q hq
      rcases List.mem_cons.mp hq with rfl | hq'
      · exact lexLeP_refl q
      · exact (List.pairwise_cons.mp hs).1 q hq'

theorem sorted_le_getLast {l : List Point} {m : Point}
    (hs : List.Pairwise LexLeP l) (hm : l.getLast? = some m) :
    ∀ q ∈ l, LexLeP q m := by
  have hs' : List.Pairwise (fun a b => LexLeP b a) l.reverse :=
    List.pairwise_reverse.mpr hs
  have hm' : l.reverse.head? = some m := by
    rw [List.head?_reverse]
    exact hm
  intro q hq
  have hq' : q ∈ l.reverse := by
    rw [List.mem_reverse]
    exact hq
  cases hl : l.reverse with
  | nil =>
      rw [hl] at hq'
      cases hq'
  | cons a tl =>
      rw [hl] at hm' hs' hq'
      have ha : a = m := by
        injection hm'
      subst ha
      rcases List.mem_cons.mp hq' with rfl | hq2
      · exact lexLeP_refl q
      · exact (List.pairwise_cons.mp hs').1 q hq2

theorem stack_mem {st l : List Point} (hsub : st.reverse.Sublist l) {x : Point}
    (hx : x ∈ st) : x ∈ l :=
  hsub.mem (by rwa [List.mem_reverse])

theorem stack_lex_chain {st l : List Point} (hsub : st.reverse.Sublist l)
    (hs : List.Pairwise LexLeP l) :
    List.Chain' (fun u v => LexLeP v u) st := by
  have h1 : List.Pairwise LexLeP st.reverse := List.Pairwise.sublist hsub hs
  exact (List.pairwise_reverse.mp h1).chain'

theorem popBad_rev_isPrefix (st : List Point) (p : Point) :
    (popBad st p).reverse <+: st.reverse := by
  obtain ⟨pre, hpre⟩ := popBad_suffix st p
  refine ⟨pre.reverse, ?_⟩
  rw [← List.reverse_append, hpre]

theorem chainStep_inv (processed : List Point) (st : List Point) (p : Point)
    (hsort : List.Pairwise LexLeP (processed ++ [p]))
    (hinv : ChainInv processed st) :
    ChainInv (processed ++ [p]) (p :: popBad st p) := by
  obtain ⟨hsub, hhead, hlast, hconv, hcov⟩ := hinv
  have hsortP : List.Pairwise LexLeP processed :=
    (List.pairwise_append.mp hsort).1
  have hlep : ∀ q ∈ processed, LexLeP q p := by
    intro q hq
    exact (List.pairwise_append.mp hsort).2.2 q hq p (by simp)
  have hmemp : ∀ x ∈ st, LexLeP x p := fun x hx => hlep x (stack_mem hsub hx)
  have hlexst : List.Chain' (fun u v => LexLeP v u) st := stack_lex_chain hsub hsortP
  have hmemp' : ∀ x ∈ popBad st p, LexLeP x p := fun x hx =>
    hmemp x ((popBad_suffix st p).mem hx)
  have hlexst' : List.Chain' (fun u v => LexLeP v u) (popBad st p) :=
    hlexst.suffix (popBad_suffix st p)
  have hconv' : Conv3 (popBad st p) := conv3_suffix (popBad_suffix st p) hconv
  have htopcond : ∀ t s rest, popBad st p = t :: s :: rest → 0 ≤ cross s t p := by
    intro t s rest heq
    rcases popBad_stop st p with hlen | ⟨t', s', rest', heq', hc⟩
    · rw [heq] at hlen
      simp at hlen
    · rw [heq] at heq'
      injection heq' with h1 h2
      injection h2 with h3 _
      rw [← h1, ← h3] at hc
      exact le_of_lt hc
  refine ⟨?_, ?_, ?_, ?_, ?_⟩
  · show ((p :: popBad st p).reverse).Sublist (processed ++ [p])
    rw [List.reverse_cons]
    exact List.Sublist.append
      (((popBad_rev_isPrefix st p).sublist).trans hsub) (List.Sublist.refl [p])
  · show (p :: popBad st p).head? = (processed ++ [p]).getLast?
    rw [List.getLast?_concat]
    rfl
  · show (p :: popBad st p).getLast? = (processed ++ [p]).head?
    cases hproc : processed with
    | nil =>
        have hst : st = [] := by
          have := hproc ▸ hsub
          have h0 : st.reverse = [] := List.sublist_nil.mp this
          rw [← List.reverse_reverse st, h0]
          rfl
        rw [hst]
        simp [popBad]
    | cons h tlproc =>
        have hstne : st ≠ [] := by
          intro hst
          rw [hst] at hlast
          rw [hproc] at hlast
          cases hlast
        have hpne : popBad st p ≠ [] := popBad_ne_nil st p hstne
        cases hpb : popBad st p with
        | nil => exact absurd hpb hpne
        | cons x xs =>
            rw [List.getLast?_cons_cons]
            rw [← hpb, popBad_getLast st p hstne, hlast, hproc]
            rfl
  · show Conv3 (p :: popBad st p)
    rcases popBad_stop st p with hlen | ⟨t, s, rest, heq, hc⟩
    · cases hpb : popBad st p with
      | nil => trivial
      | cons x xs =>
          rw [hpb] at hlen
          cases xs with
          | nil => trivial
          | cons y ys => simp at hlen
    · rw [heq]
      refine ⟨hc, ?_⟩
      rw [← heq]
      exact hconv'
  · show ∀ q ∈ processed ++ [p],
        List.Chain' (fun u v => 0 ≤ cross v u q) (p :: popBad st p)
    intro q hq
    rcases List.mem_append.mp hq with hq1 | hq2
    · -- q is an old processed point
      have hnew : ∀ t rest', popBad st p = t :: rest' → 0 ≤ cross t p q := by
        apply popBad_new_edge p q st (hcov q hq1) hlexst hmemp (hlep q hq1)
        · intro bt hbt
          have hbt' : st.getLast? = some bt := hbt
          rw [hlast] at hbt'
          exact sorted_head_le hsortP hbt' q hq1
        · intro tp htp
          have htp' : st.head? = some tp := htp
          rw [hhead] at htp'
          exact Or.inl (sorted_le_getLast hsortP htp' q hq1)
      cases hpb : popBad st p with
      | nil => simp
      | cons x xs =>
          rw [List.chain'_cons]
          exact ⟨hnew x xs hpb, hpb ▸ ((hcov q hq1).suffix (popBad_suffix st p))⟩
    · -- q = p
      have hqp : q = p := by
        simpa using hq2
      rw [hqp]
      cases hpb : popBad st p with
      | nil => simp
      | cons x xs =>
          rw [List.chain'_cons]
          constructor
          · rw [cross_self_right]
          · rw [← hpb]
            exact chain_cover_down p (popBad st p) hconv' hlexst' hmemp' htopcond

theorem chainFold_inv (rest : List Point) :
    ∀ (processed st : List Point),
      List.Pairwise LexLeP (processed ++ rest) →
      ChainInv processed st →
      ChainInv (processed ++ rest)
        (rest.foldl (fun s p => p :: popBad s p) st) := by
  induction rest with
  | nil =>
      intro processed st _ hinv
      rw [List.append_nil]
      exact hinv
  | cons p tl ih =>
      intro processed st hsort hinv
      have hsubl : (processed ++ [p]).Sublist (processed ++ p :: tl) :=
        List.Sublist.append (List.Sublist.refl processed)
          (List.Sublist.cons₂ p (List.nil_sublist tl))
      have hps : List.Pairwise LexLeP (processed ++ [p]) :=
        List.Pairwise.sublist hsubl hsort
      have hstep := chainStep_inv processed st p hps hinv
      have hsort1 : List.Pairwise LexLeP ((processed ++ [p]) ++ tl) := by
        rw [List.append_assoc]
        simpa using hsort
      have hres := ih (processed ++ [p]) (p :: popBad st p) hsort1 hstep
      rw [List.append_assoc] at hres
      simpa using hres

theorem buildChain_inv (pts : List Point) (hsort : List.Pairwise LexLeP pts) :
    ChainInv pts (buildChain pts) := by
  have h := chainFold_inv pts [] [] (by simpa using hsort)
    ⟨by simp, rfl, rfl, trivial, by simp⟩
  simpa [buildChain] using h

theorem negP_negP (p : Point) : negP (negP p) = p := by
  unfold negP
  cases p
  simp

theorem negP_injective : Function.Injective negP := by
  intro a b h
  rw [← negP_negP a, h, negP_negP]

theorem popBad_map_neg (st : List Point) (p : Point) :
    popBad (st.map negP) (negP p) = (popBad st p).map negP := by
  induction st with
  | nil => rfl
  | cons b rest ih =>
      cases rest with
      | nil => rfl
      | cons a r =>
          simp only [List.map_cons]
          show (if cross (negP a) (negP b) (negP p) ≤ 0 then
              popBad (negP a :: r.map negP) (negP p)
            else negP b :: negP a :: r.map negP) = _
          rw [cross_neg_eq]
          show _ = (if cross a b p ≤ 0 then popBad (a :: r) p else b :: a :: r).map negP
          split_ifs with h
          · have := ih
            simp only [List.map_cons] at this
            exact this
          · simp

theorem buildChain_fold_neg (l : List Point) :
    ∀ st : List Point,
      (l.map negP).foldl (fun s p => p :: popBad s p) (st.map negP)
        = (l.foldl (fun s p => p :: popBad s p) st).map negP := by
  induction l with
  | nil => intro st; rfl
  | cons p tl ih =>
      intro st
      simp only [List.map_cons, List.foldl_cons]
      have hstep : negP p :: popBad (st.map negP) (negP p)
          = (p :: popBad st p).map negP := by
        rw [popBad_map_neg]
        rfl
      rw [hstep, ih]

theorem buildChain_map_neg (l : List Point) :
    buildChain (l.map negP) = (buildChain l).map negP := by
  unfold buildChain
  have h := buildChain_fold_neg l []
  simpa using h

theorem conv3_map_neg (st : List Point) : Conv3 (st.map negP) ↔ Conv3 st := by
  induction st with
  | nil => exact Iff.rfl
  | cons c rest ih =>
      cases rest with
      | nil => exact Iff.rfl
      | cons b rest2 =>
          cases rest2 with
          | nil => exact Iff.rfl
          | cons a rest3 =>
              simp only [List.map_cons] at ih ⊢
              show (0 < cross (negP a) (negP b) (negP c)
                  ∧ Conv3 (negP b :: negP a :: rest3.map negP)) ↔ _
              rw [cross_neg_eq]
              exact and_congr Iff.rfl ih

theorem sublist_of_map_neg {l1 l2 : List Point}
    (h : (l1.map negP).Sublist (l2.map negP)) : l1.Sublist l2 := by
  have h2 := h.map negP
  have hcomp : negP ∘ negP = id := funext negP_negP
  simpa [List.map_map, hcomp] using h2

theorem buildChain_inv_rev (s : List Point) (hs : List.Pairwise LexLeP s) :
    ChainInv s.reverse (buildChain s.reverse) := by
  have hNs : List.Pairwise LexLeP (s.reverse.map negP) := by
    rw [List.pairwise_map]
    have h1 : List.Pairwise (fun a b => LexLeP b a) s.reverse :=
      List.pairwise_reverse.mpr hs
    exact h1.imp fun h => (lex_neg_iff _ _).mpr h
  have hinv := buildChain_inv (s.reverse.map negP) hNs
  rw [buildChain_map_neg] at hinv
  obtain ⟨h1, h2, h3, h4, h5⟩ := hinv
  refine ⟨?_, ?_, ?_, ?_, ?_⟩
  · apply sublist_of_map_neg
    rw [← List.reverse_map]
    exact h1
  · rw [List.head?_map, List.getLast?_map] at h2
    exact Option.map_injective negP_injective h2
  · rw [List.getLast?_map, List.head?_map] at h3
    exact Option.map_injective negP_injective h3
  · exact (conv3_map_neg _).mp h4
  · intro q hq
    have hmq := h5 (negP q) (List.mem_map_of_mem negP hq)
    rw [List.chain'_map] at hmq
    exact hmq.imp (fun a b hab => by rwa [cross_neg_eq] at hab)

theorem lexLe_trans_b (a b c : Point) (h1 : lexLe a b = true)
    (h2 : lexLe b c = true) : lexLe a c = true := by
  rw [lexLe_iff] at h1 h2 ⊢
  exact lexLeP_trans h1 h2

theorem lexLe_total_b (a b : Point) : (lexLe a b || lexLe b a) = true := by
  rw [Bool.or_eq_true]
  rcases lexLeP_total a b with h | h
  · exact Or.inl ((lexLe_iff _ _).mpr h)
  · exact Or.inr ((lexLe_iff _ _).mpr h)

theorem pairwise_mergeSort (l : List Point) :
    List.Pairwise LexLeP (l.mergeSort lexLe) := by
  have h := List.sorted_mergeSort lexLe_trans_b lexLe_total_b l
  exact h.imp fun hab => (lexLe_iff _ _).mp hab

theorem mergeSort_pair (a b : Point) :
    [a, b].mergeSort lexLe = if lexLe a b then [a, b] else [b, a] := by
  apply List.eq_of_perm_of_sorted (r := LexLeP)
  · refine (List.mergeSort_perm [a, b] lexLe).trans ?_
    split_ifs
    · exact List.Perm.refl _
    · exact List.Perm.swap b a []
  · exact pairwise_mergeSort [a, b]
  · split_ifs with h
    · refine List.Pairwise.cons ?_ (List.Pairwise.cons (by simp) List.Pairwise.nil)
      intro x hx
      rw [List.mem_singleton] at hx
      subst hx
      exact (lexLe_iff a x).mp h
    · refine List.Pairwise.cons ?_ (List.Pairwise.cons (by simp) List.Pairwise.nil)
      intro x hx
      rw [List.mem_singleton] at hx
      subst hx
      rcases Bool.or_eq_true _ _ |>.mp (lexLe_total_b b x) with h2 | h2
      · exact (lexLe_iff b x).mp h2
      · exact absurd h2 h

theorem getConvexHull_pair (a b : Point) :
    getConvexHull [a, b] = if lexLe a b then [a, b] else [b, a] := by
  unfold getConvexHull
  rw [mergeSort_pair]
  split_ifs with h1 h2 h2 <;> first
    | rfl
    | (exfalso; simp at h1)

theorem getConvexHull_eq_hullS {pts : List Point} (h : 2 ≤ pts.length) :
    getConvexHull pts = hullS (pts.mergeSort lexLe) := by
  unfold getConvexHull hullS
  rw [if_neg (by omega)]

theorem exists_cons_cons_of_two_le {l : List Point} (h : 2 ≤ l.length) :
    ∃ x y t, l = x :: y :: t := by
  cases l with
  | nil => simp at h
  | cons x t =>
      cases t with
      | nil => simp at h
      | cons y t2 => exact ⟨x, y, t2, rfl⟩

theorem exists_three_of_three_le {l : List Point} (h : 3 ≤ l.length) :
    ∃ x y z t, l = x :: y :: z :: t := by
  cases l with
  | nil => simp at h
  | cons x t =>
      cases t with
      | nil => simp at h
      | cons y t2 =>
          cases t2 with
          | nil => simp at h
          | cons z t3 => exact ⟨x, y, z, t3, rfl⟩

theorem dropLast_append_of_getLast? {l : List Point} {x : Point}
    (h : l.getLast? = some x) : l.dropLast ++ [x] = l := by
  have hne : l ≠ [] := by
    intro he
    rw [he] at h
    cases h
  have h2 := List.getLast?_eq_getLast l hne
  rw [h2] at h
  injection h with h3
  rw [← h3]
  exact List.dropLast_append_getLast hne

theorem mem_of_getLast?_eq {l : List Point} {x : Point}
    (h : l.getLast? = some x) : x ∈ l := by
  rw [← dropLast_append_of_getLast? h]
  simp

theorem head_ne_getLast_of_nodup {l : List Point} (hnd : l.Nodup) {x y : Point}
    (hx : l.head? = some x) (hy : l.getLast? = some y) (hlen : 2 ≤ l.length) :
    x ≠ y := by
  cases l with
  | nil => cases hx
  | cons a t =>
      cases t with
      | nil => simp at hlen
      | cons b t2 =>
          have hxa : x = a := by
            injection hx with h
            exact h.symm
          subst hxa
          have hyy : y ∈ b :: t2 := by
            rw [List.getLast?_cons_cons] at hy
            exact mem_of_getLast?_eq hy
          intro he
          rw [List.nodup_cons] at hnd
          exact hnd.1 (he ▸ hyy)

theorem two_le_length_of_ends_ne {l : List Point} {x y : Point}
    (hx : l.head? = some x) (hy : l.getLast? = some y) (hne : x ≠ y) :
    2 ≤ l.length := by
  cases l with
  | nil => cases hx
  | cons a t =>
      cases t with
      | nil =>
          injection hx with h1
          injection hy with h2
          exact absurd (h1.symm.trans h2) hne
      | cons b t2 => simp

theorem chain'_last_pair {R : Point → Point → Prop} {l pre : List Point}
    {a b : Point} (hc : List.Chain' R l) (he : l = pre ++ [a, b]) : R a b := by
  subst he
  have he2 : pre ++ [a, b] = (pre ++ [a]) ++ [b] := by simp
  rw [he2] at hc
  obtain ⟨_, _, h3⟩ := List.chain'_append.mp hc
  exact h3 a (by rw [List.getLast?_concat]; rfl) b rfl

theorem chain'_first_pair {R : Point → Point → Prop} {x y : Point}
    {t : List Point} (hc : List.Chain' R (x :: y :: t)) : R x y :=
  (List.chain'_cons.mp hc).1

theorem halfplane_junction {a b c q : Point} (hab : LexLt a b) (hcb : LexLt c b)
    (hcol : cross a b c = 0) (h1 : 0 ≤ cross a b q) (h2 : 0 ≤ cross b c q) :
    cross a b q = 0 := by
  unfold cross at hcol h1 h2 ⊢
  unfold LexLt at hab hcb
  have id1 : (b.x - a.x) * ((c.x - b.x) * (q.y - b.y) - (c.y - b.y) * (q.x - b.x))
      = (c.x - b.x) * ((b.x - a.x) * (q.y - a.y) - (b.y - a.y) * (q.x - a.x)) := by
    linear_combination (b.x - q.x) * hcol
  have id2 : (b.y - a.y) * ((c.x - b.x) * (q.y - b.y) - (c.y - b.y) * (q.x - b.x))
      = (c.y - b.y) * ((b.x - a.x) * (q.y - a.y) - (b.y - a.y) * (q.x - a.x)) := by
    linear_combination (b.y - q.y) * hcol
  rcases hab with hdx | ⟨hdx0, hdy⟩
  · have hdx' : 0 < b.x - a.x := by linarith
    have hex' : c.x - b.x < 0 := by
      rcases hcb with h | ⟨hxx, hyy⟩
      · linarith
      · exfalso
        have hH : (b.x - a.x) * (c.y - b.y) = (b.y - a.y) * (c.x - b.x) := by
          linear_combination hcol
        rw [hxx] at hH
        nlinarith
    have h4 : 0 ≤ (c.x - b.x)
        * ((b.x - a.x) * (q.y - a.y) - (b.y - a.y) * (q.x - a.x)) := by
      rw [← id1]
      exact mul_nonneg (le_of_lt hdx') h2
    have h5 : (b.x - a.x) * (q.y - a.y) - (b.y - a.y) * (q.x - a.x) ≤ 0 := by
      nlinarith
    linarith
  · have hdy' : 0 < b.y - a.y := by linarith
    rcases hcb with hex | ⟨hcx, hcy⟩
    · exfalso
      rw [hdx0] at hcol
      nlinarith
    · have hey' : c.y - b.y < 0 := by linarith
      have h4 : 0 ≤ (c.y - b.y)
          * ((b.x - a.x) * (q.y - a.y) - (b.y - a.y) * (q.x - a.x)) := by
        rw [← id2]
        exact mul_nonneg (le_of_lt hdy') h2
      have h5 : (b.x - a.x) * (q.y - a.y) - (b.y - a.y) * (q.x - a.x) ≤ 0 := by
        nlinarith
      linarith

theorem collinear_triple {x y p r t : Point} (hxy : x ≠ y)
    (hp : cross x y p = 0) (hr : cross x y r = 0) (ht : cross x y t = 0) :
    cross p r t = 0 := by
  have hxne : x.x ≠ y.x ∨ x.y ≠ y.y := by
    by_contra hcon
    push_neg at hcon
    apply hxy
    cases x
    cases y
    simp only [Point.mk.injEq]
    exact ⟨hcon.1, hcon.2⟩
  unfold cross at hp hr ht
  rcases hxne with h | h
  · have h1 : (y.x - x.x) * cross p r t = 0 := by
      unfold cross
      linear_combination (r.x - p.x) * ht - (t.x - p.x) * hr + (t.x - r.x) * hp
    have hne : y.x - x.x ≠ 0 := sub_ne_zero.mpr (Ne.symm h)
    exact (mul_eq_zero.mp h1).resolve_left hne
  · have h1 : (y.y - x.y) * cross p r t = 0 := by
      unfold cross
      linear_combination (r.y - p.y) * ht - (t.y - p.y) * hr + (t.y - r.y) * hp
    have hne : y.y - x.y ≠ 0 := sub_ne_zero.mpr (Ne.symm h)
    exact (mul_eq_zero.mp h1).resolve_left hne

theorem conv3_split :
    ∀ (pre st : List Point), Conv3 st →
      ∀ (a b c : Point) (post : List Point),
        st = pre ++ c :: b :: a :: post → 0 < cross a b c := by
  intro pre
  induction pre with
  | nil =>
      intro st h a b c post heq
      subst heq
      exact h.1
  | cons x pre2 ih =>
      intro st h a b c post heq
      subst heq
      exact ih _ (conv3_tail x _ h) a b c post rfl

theorem strictTurns_of_conv3 {st : List Point} (h : Conv3 st) :
    StrictTurns st.reverse := by
  intro pre a b c post heq
  have heq2 : st = post.reverse ++ c :: b :: a :: pre.reverse := by
    have h3 := congrArg List.reverse heq
    rw [List.reverse_reverse] at h3
    rw [h3]
    simp
  exact conv3_split post.reverse st h a b c pre.reverse heq2

theorem convF_cons {a : Point} {l : List Point} :
    ConvF (a :: l)
      ↔ (∀ b c rest, l = b :: c :: rest → 0 < cross a b c) ∧ ConvF l := by
  cases l with
  | nil =>
      constructor
      · intro _
        refine ⟨?_, trivial⟩
        intro b c rest h
        cases h
      · intro _
        trivial
  | cons b t =>
      cases t with
      | nil =>
          constructor
          · intro _
            refine ⟨?_, trivial⟩
            intro b2 c rest h
            cases h
          · intro _
            trivial
      | cons c r =>
          show (0 < cross a b c ∧ ConvF (b :: c :: r)) ↔ _
          constructor
          · rintro ⟨h1, h2⟩
            refine ⟨?_, h2⟩
            rintro b2 c2 rest2 heq
            injection heq with e1 heq2
            injection heq2 with e2 _
            rw [← e1, ← e2]
            exact h1
          · rintro ⟨h1, h2⟩
            exact ⟨h1 b c r rfl, h2⟩

theorem convF_of_strictTurns {l : List Point} (h : StrictTurns l) : ConvF l := by
  induction l with
  | nil => trivial
  | cons a t ih =>
      rw [convF_cons]
      constructor
      · intro b c rest heq
        exact h [] a b c rest (by rw [heq]; rfl)
      · apply ih
        intro pre x y z post heq
        exact h (a :: pre) x y z post (by rw [heq]; rfl)

theorem append_split_cases {xs ys pre post : List Point} {a b c : Point}
    (h : xs ++ ys = pre ++ a :: b :: c :: post) :
    (∃ post2, xs = pre ++ a :: b :: c :: post2)
    ∨ (∃ pre2, ys = pre2 ++ a :: b :: c :: post)
    ∨ (xs = pre ++ [a, b] ∧ ys = c :: post)
    ∨ (xs = pre ++ [a] ∧ ys = b :: c :: post) := by
  rcases List.append_eq_append_iff.mp h with ⟨w, hw1, hw2⟩ | ⟨w, hw1, hw2⟩
  · exact Or.inr (Or.inl ⟨w, hw2⟩)
  · rcases w with _ | ⟨x1, w⟩
    · rw [List.append_nil] at hw1
      rw [List.nil_append] at hw2
      exact Or.inr (Or.inl ⟨[], by rw [List.nil_append]; exact hw2.symm⟩)
    · rcases w with _ | ⟨x2, w⟩
      · injection hw2 with e1 e2
        rw [← e1] at hw1
        exact Or.inr (Or.inr (Or.inr ⟨hw1, e2.symm⟩))
      · rcases w with _ | ⟨x3, w⟩
        · injection hw2 with e1 hw3
          injection hw3 with e2 e3
          rw [← e1, ← e2] at hw1
          exact Or.inr (Or.inr (Or.inl ⟨hw1, e3.symm⟩))
        · injection hw2 with e1 hw3
          injection hw3 with e2 hw4
          injection hw4 with e3 e4
          rw [← e1, ← e2, ← e3] at hw1
          exact Or.inl ⟨w, hw1⟩

theorem hull_sorted_main (s : List Point) (hs : List.Pairwise LexLeP s)
    (hnd : s.Nodup) (hlen : 2 ≤ s.length) :
    (∀ x ∈ hullS s, x ∈ s)
    ∧ (∀ q ∈ s, List.Chain' (fun u v => 0 ≤ cross u v q)
        (hullS s ++ (hullS s).take 1))
    ∧ (3 ≤ (hullS s).length → ConvF (hullS s ++ (hullS s).take 2)) := by
  obtain ⟨hLsub, hLhead, hLlast, hLconv, hLcov⟩ := buildChain_inv s hs
  obtain ⟨hUsub, hUhead, hUlast, hUconv, hUcov⟩ := buildChain_inv_rev s hs
  obtain ⟨s0, s1, st0, hsshape⟩ := exists_cons_cons_of_two_le hlen
  have hs0 : s.head? = some s0 := by
    rw [hsshape]
    rfl
  have hslE : ∃ z, s.getLast? = some z := by
    cases hz : s.getLast? with
    | none =>
        rw [List.getLast?_eq_none_iff] at hz
        rw [hz] at hlen
        simp at hlen
    | some z => exact ⟨z, rfl⟩
  obtain ⟨sl, hsl⟩ := hslE
  have hne : s0 ≠ sl := head_ne_getLast_of_nodup hnd hs0 hsl hlen
  have hLhead2 : (buildChain s).reverse.head? = some s0 := by
    rw [List.head?_reverse, hLlast, hs0]
  have hLlast2 : (buildChain s).reverse.getLast? = some sl := by
    rw [List.getLast?_reverse, hLhead, hsl]
  have hLlen : 2 ≤ (buildChain s).reverse.length :=
    two_le_length_of_ends_ne hLhead2 hLlast2 hne
  have hLnd : (buildChain s).reverse.Nodup := List.Sublist.nodup hLsub hnd
  have hLmem : ∀ x ∈ (buildChain s).reverse, x ∈ s := fun x hx =>
    List.Sublist.subset hLsub hx
  have hLst : StrictTurns (buildChain s).reverse := strictTurns_of_conv3 hLconv
  have hLch : ∀ q ∈ s,
      List.Chain' (fun u v => 0 ≤ cross u v q) (buildChain s).reverse := by
    intro q hq
    exact List.chain'_reverse.mpr (hLcov q hq)
  have hUhead2 : (buildChain s.reverse).reverse.head? = some sl := by
    rw [List.head?_reverse, hUlast, List.head?_reverse, hsl]
  have hUlast2 : (buildChain s.reverse).reverse.getLast? = some s0 := by
    rw [List.getLast?_reverse, hUhead, List.getLast?_reverse, hs0]
  have hUlen : 2 ≤ (buildChain s.reverse).reverse.length :=
    two_le_length_of_ends_ne hUhead2 hUlast2 (Ne.symm hne)
  have hUnd : (buildChain s.reverse).reverse.Nodup :=
    List.Sublist.nodup hUsub (List.nodup_reverse.mpr hnd)
  have hUmem : ∀ x ∈ (buildChain s.reverse).reverse, x ∈ s := by
    intro x hx
    have h2 := List.Sublist.subset hUsub hx
    rwa [List.mem_reverse] at h2
  have hUst : StrictTurns (buildChain s.reverse).reverse :=
    strictTurns_of_conv3 hUconv
  have hUch : ∀ q ∈ s,
      List.Chain' (fun u v => 0 ≤ cross u v q) (buildChain s.reverse).reverse := by
    intro q hq
    exact List.chain'_reverse.mpr (hUcov q (List.mem_reverse.mpr hq))
  obtain ⟨l0, l1, Lr, hLshape⟩ := exists_cons_cons_of_two_le hLlen
  obtain ⟨u0, u1, Ur, hUshape⟩ := exists_cons_cons_of_two_le hUlen
  have hl0 : s0 = l0 := by
    rw [hLshape] at hLhead2
    simp only [List.head?_cons, Option.some.injEq] at hLhead2
    exact hLhead2.symm
  subst hl0
  have hu0 : sl = u0 := by
    rw [hUshape] at hUhead2
    simp only [List.head?_cons, Option.some.injEq] at hUhead2
    exact hUhead2.symm
  subst hu0
  have hLdecomp : ((buildChain s).reverse).dropLast ++ [sl] = (buildChain s).reverse :=
    dropLast_append_of_getLast? hLlast2
  have hUdecomp :
      ((buildChain s.reverse).reverse).dropLast ++ [s0] = (buildChain s.reverse).reverse :=
    dropLast_append_of_getLast? hUlast2
  have hLdshape : ((buildChain s).reverse).dropLast = s0 :: (l1 :: Lr).dropLast := by
    rw [hLshape]
    rfl
  have hUdshape : ((buildChain s.reverse).reverse).dropLast = sl :: (u1 :: Ur).dropLast := by
    rw [hUshape]
    rfl
  have hmemb : ∀ x ∈ hullS s, x ∈ s := by
    intro x hx
    unfold hullS at hx
    rcases List.mem_append.mp hx with h | h
    · exact hLmem x (List.Sublist.subset (List.dropLast_sublist _) h)
    · exact hUmem x (List.Sublist.subset (List.dropLast_sublist _) h)
  have hcov : ∀ q ∈ s, List.Chain' (fun u v => 0 ≤ cross u v q)
      (hullS s ++ (hullS s).take 1) := by
    intro q hq
    have htake : (hullS s).take 1 = [s0] := by
      unfold hullS
      rw [hLdshape]
      rfl
    rw [htake]
    unfold hullS
    have heq1 : ((((buildChain s).reverse).dropLast
          ++ ((buildChain s.reverse).reverse).dropLast) ++ [s0])
        = ((buildChain s).reverse).dropLast ++ (buildChain s.reverse).reverse := by
      rw [List.append_assoc]
      rw [hUdecomp]
    rw [heq1]
    have hchL := hLch q hq
    rw [← hLdecomp] at hchL
    obtain ⟨hcLd, _, hjL⟩ := List.chain'_append.mp hchL
    refine List.chain'_append.mpr ⟨hcLd, hUch q hq, ?_⟩
    intro x hx y hy
    rw [hUhead2] at hy
    have hy2 : y = sl := by
      cases hy
      rfl
    rw [hy2]
    exact hjL x hx sl rfl
  have hconv : 3 ≤ (hullS s).length → ConvF (hullS s ++ (hullS s).take 2) := by
    intro h3
    have hOr : 3 ≤ (buildChain s).reverse.length
        ∨ 3 ≤ (buildChain s.reverse).reverse.length := by
      unfold hullS at h3
      rw [List.length_append, List.length_dropLast, List.length_dropLast] at h3
      omega
    have hallcol : ∀ x y : Point, x ≠ y → (∀ q ∈ s, cross x y q = 0) → False := by
      intro x y hxy hall
      rcases hOr with hL3 | hU3
      · obtain ⟨p1, p2, p3, r, hsh⟩ := exists_three_of_three_le hL3
        have hpos := hLst [] p1 p2 p3 r (by rw [hsh]; rfl)
        have hm1 : p1 ∈ s := hLmem p1 (by rw [hsh]; simp)
        have hm2 : p2 ∈ s := hLmem p2 (by rw [hsh]; simp)
        have hm3 : p3 ∈ s := hLmem p3 (by rw [hsh]; simp)
        have hz := collinear_triple hxy (hall p1 hm1) (hall p2 hm2) (hall p3 hm3)
        linarith
      · obtain ⟨p1, p2, p3, r, hsh⟩ := exists_three_of_three_le hU3
        have hpos := hUst [] p1 p2 p3 r (by rw [hsh]; rfl)
        have hm1 : p1 ∈ s := hUmem p1 (by rw [hsh]; simp)
        have hm2 : p2 ∈ s := hUmem p2 (by rw [hsh]; simp)
        have hm3 : p3 ∈ s := hUmem p3 (by rw [hsh]; simp)
        have hz := collinear_triple hxy (hall p1 hm1) (hall p2 hm2) (hall p3 hm3)
        linarith
    have hcovL1 : ∀ q ∈ s, 0 ≤ cross s0 l1 q := by
      intro q hq
      have h2 := hLch q hq
      rw [hLshape] at h2
      exact chain'_first_pair h2
    have hcovU1 : ∀ q ∈ s, 0 ≤ cross sl u1 q := by
      intro q hq
      have h2 := hUch q hq
      rw [hUshape] at h2
      exact chain'_first_pair h2
    have hcovLlast : ∀ pre a, (buildChain s).reverse = pre ++ [a, sl] →
        ∀ q ∈ s, 0 ≤ cross a sl q := by
      intro pre a hsh q hq
      exact chain'_last_pair (hLch q hq) hsh
    have hcovUlast : ∀ pre a, (buildChain s.reverse).reverse = pre ++ [a, s0] →
        ∀ q ∈ s, 0 ≤ cross a s0 q := by
      intro pre a hsh q hq
      exact chain'_last_pair (hUch q hq) hsh
    have hjmax : ∀ pre a, (buildChain s).reverse = pre ++ [a, sl] →
        0 < cross a sl u1 := by
      intro pre a hsh
      have hma : a ∈ s := hLmem a (by rw [hsh]; simp)
      have hmu1 : u1 ∈ s := hUmem u1 (by rw [hUshape]; simp)
      have h0 : 0 ≤ cross a sl u1 := hcovLlast pre a hsh u1 hmu1
      rcases lt_or_eq_of_le h0 with h | h
      · exact h
      · exfalso
        have hcol : cross a sl u1 = 0 := h.symm
        have hasl : a ≠ sl := by
          have hsb : [a, sl].Sublist (buildChain s).reverse := by
            rw [hsh]
            exact List.IsSuffix.sublist ⟨pre, rfl⟩
          have h2 := List.nodup_cons.mp (List.Sublist.nodup hsb hLnd)
          intro he
          exact h2.1 (by rw [he]; simp)
        have hu1sl : u1 ≠ sl := by
          have h2 := hUnd
          rw [hUshape, List.nodup_cons] at h2
          intro he
          exact h2.1 (by rw [← he]; simp)
        have hlta : LexLt a sl := lexLt_of_le_ne (sorted_le_getLast hs hsl a hma) hasl
        have hltu : LexLt u1 sl := lexLt_of_le_ne (sorted_le_getLast hs hsl u1 hmu1) hu1sl
        have hall : ∀ q ∈ s, cross a sl q = 0 := by
          intro q hq
          exact halfplane_junction hlta hltu hcol (hcovLlast pre a hsh q hq) (hcovU1 q hq)
        exact hallcol a sl (lexLt_ne hlta) hall
    have hjmin : ∀ pre a, (buildChain s.reverse).reverse = pre ++ [a, s0] →
        0 < cross a s0 l1 := by
      intro pre a hsh
      have hma : a ∈ s := hUmem a (by rw [hsh]; simp)
      have hml1 : l1 ∈ s := hLmem l1 (by rw [hLshape]; simp)
      have h0 : 0 ≤ cross a s0 l1 := hcovUlast pre a hsh l1 hml1
      rcases lt_or_eq_of_le h0 with h | h
      · exact h
      · exfalso
        have hcol : cross a s0 l1 = 0 := h.symm
        have has0 : a ≠ s0 := by
          have hsb : [a, s0].Sublist (buildChain s.reverse).reverse := by
            rw [hsh]
            exact List.IsSuffix.sublist ⟨pre, rfl⟩
          have h2 := List.nodup_cons.mp (List.Sublist.nodup hsb hUnd)
          intro he
          exact h2.1 (by rw [he]; simp)
        have hl1s0 : l1 ≠ s0 := by
          have h2 := hLnd
          rw [hLshape, List.nodup_cons] at h2
          intro he
          exact h2.1 (by rw [← he]; simp)
        have hlta : LexLt s0 a := lexLt_of_le_ne (sorted_head_le hs hs0 a hma) (Ne.symm has0)
        have hltl : LexLt s0 l1 := lexLt_of_le_ne (sorted_head_le hs hs0 l1 hml1) (Ne.symm hl1s0)
        have hall : ∀ q ∈ s, cross a s0 q = 0 := by
          intro q hq
          have hres := halfplane_junction (a := negP a) (b := negP s0) (c := negP l1)
            (q := negP q)
            ((lexLt_neg_iff _ _).mpr hlta) ((lexLt_neg_iff _ _).mpr hltl)
            (by rw [cross_neg_eq]; exact hcol)
            (by rw [cross_neg_eq]; exact hcovUlast pre a hsh q hq)
            (by rw [cross_neg_eq]; exact hcovL1 q hq)
          rwa [cross_neg_eq] at hres
        exact hallcol a s0 has0 hall
    have htake2 : (hullS s).take 2 = [s0, l1] := by
      unfold hullS
      rw [hLdshape]
      cases Lr with
      | nil =>
          have hl1sl : l1 = sl := by
            rw [hLshape] at hLlast2
            simp only [List.getLast?_cons_cons, List.getLast?_singleton,
              Option.some.injEq] at hLlast2
            exact hLlast2
          rw [hUdshape, hl1sl]
          rfl
      | cons l2 Lr2 => rfl
    have e1 : (l1 :: Lr).dropLast ++ [sl] = l1 :: Lr := by
      have h5 := hLdecomp
      rw [hLshape] at h5
      rw [show (s0 :: l1 :: Lr).dropLast = s0 :: (l1 :: Lr).dropLast from rfl,
        List.cons_append] at h5
      injection h5
    have e2 : (u1 :: Ur).dropLast ++ [s0] = u1 :: Ur := by
      have h5 := hUdecomp
      rw [hUshape] at h5
      rw [show (sl :: u1 :: Ur).dropLast = sl :: (u1 :: Ur).dropLast from rfl,
        List.cons_append] at h5
      injection h5
    have hW : hullS s ++ (hullS s).take 2
        = (buildChain s).reverse ++ ((u1 :: Ur) ++ [l1]) := by
      rw [htake2]
      unfold hullS
      rw [hLshape, hUshape]
      rw [show (s0 :: l1 :: Lr).dropLast = s0 :: (l1 :: Lr).dropLast from rfl,
        show (sl :: u1 :: Ur).dropLast = sl :: (u1 :: Ur).dropLast from rfl]
      revert e1 e2
      generalize (l1 :: Lr).dropLast = X
      generalize (u1 :: Ur).dropLast = Y
      intro e1 e2
      rw [← e1, ← e2]
      simp
    rw [hW]
    apply convF_of_strictTurns
    intro pre a b c post heq
    rcases append_split_cases heq with ⟨post2, hca⟩ | ⟨pre2, hcb2⟩ | ⟨hc1, hc2⟩ | ⟨hc1, hc2⟩
    · exact hLst pre a b c post2 hca
    · rcases append_split_cases hcb2 with ⟨post3, hd⟩ | ⟨pre3, hd⟩ | ⟨hd1, hd2⟩ | ⟨hd1, hd2⟩
      · exact hUst (sl :: pre2) a b c post3 (by rw [hUshape, hd]; rfl)
      · exfalso
        have h5 := congrArg List.length hd
        simp only [List.length_cons, List.length_append, List.length_singleton,
          List.length_nil] at h5
        omega
      · injection hd2 with e1 e2
        have hb : b = s0 := by
          have h5 : (buildChain s.reverse).reverse.getLast? = some b := by
            rw [hUshape, hd1]
            rw [show sl :: (pre2 ++ [a, b]) = (sl :: pre2 ++ [a]) ++ [b] by simp]
            exact List.getLast?_concat _
          rw [hUlast2] at h5
          injection h5 with h6
          exact h6.symm
        rw [← e1, hb]
        exact hjmin (sl :: pre2) a (by rw [hUshape, hd1, hb]; rfl)
      · exfalso
        have h5 := congrArg List.length hd2
        simp only [List.length_cons, List.length_append, List.length_singleton,
          List.length_nil] at h5
        omega
    · have hb : b = sl := by
        have h5 : (buildChain s).reverse.getLast? = some b := by
          rw [hc1]
          rw [show pre ++ [a, b] = (pre ++ [a]) ++ [b] by simp]
          exact List.getLast?_concat _
        rw [hLlast2] at h5
        injection h5 with h6
        exact h6.symm
      have hcu : c = u1 := by
        have h2 : u1 :: (Ur ++ [l1]) = c :: post := hc2
        injection h2 with h3 _
        exact h3.symm
      rw [hb, hcu]
      exact hjmax pre a (by rw [hc1, hb])
    · have ha : a = sl := by
        have h5 : (buildChain s).reverse.getLast? = some a := by
          rw [hc1]
          exact List.getLast?_concat _
        rw [hLlast2] at h5
        injection h5 with h6
        exact h6.symm
      have hbu : b = u1 := by
        have h2 : u1 :: (Ur ++ [l1]) = b :: c :: post := hc2
        injection h2 with h3 _
        exact h3.symm
      have h4 : Ur ++ [l1] = c :: post := by
        have h2 : u1 :: (Ur ++ [l1]) = b :: c :: post := hc2
        injection h2 with h3 h5
      cases Ur with
      | nil =>
          have hcl : c = l1 := by
            rw [List.nil_append] at h4
            injection h4 with h5 _
            exact h5.symm
          have hu1s0 : u1 = s0 := by
            rw [hUshape] at hUlast2
            simp only [List.getLast?_cons_cons, List.getLast?_singleton,
              Option.some.injEq] at hUlast2
            exact hUlast2
          rw [ha, hbu, hcl, hu1s0]
          exact hjmin [] sl (by rw [hUshape, hu1s0]; rfl)
      | cons u2 Ur2 =>
          have hcu2 : c = u2 := by
            rw [List.cons_append] at h4
            injection h4 with h5 _
            exact h5.symm
          rw [ha, hbu, hcu2]
          exact hUst [] sl u1 u2 Ur2 (by rw [hUshape]; rfl)
  exact ⟨hmemb, hcov, hconv⟩

/-- **C2.** For a duplicate-free input, `getConvexHull` returns an input of at
most one point unchanged; a two-point input is returned in lexicographic
order (so NOT always unchanged, refuting the claim's `≤ 2 points unchanged`
part — see the counterexample); every hull vertex is an input point; every
input point lies weakly to the left of every directed edge of the cyclically
closed hull (so the hull contains all points, in particular all extreme
points); and whenever the hull has at least three vertices every three
cyclically consecutive hull vertices make a strictly counter-clockwise turn
(counter-clockwise order; strictly-interior points and collinear boundary
points are excluded, matching the pop condition `cross ≤ 0`). -/
theorem c2_convex_hull (pts : List Point) (hnd : pts.Nodup) :
    (pts.length ≤ 1 → getConvexHull pts = pts)
    ∧ (∀ a b : Point, pts = [a, b] →
        getConvexHull pts = if lexLe a b then [a, b] else [b, a])
    ∧ (∀ x ∈ getConvexHull pts, x ∈ pts)
    ∧ (∀ q ∈ pts, List.Chain' (fun u v => 0 ≤ cross u v q)
        (getConvexHull pts ++ (getConvexHull pts).take 1))
    ∧ (3 ≤ (getConvexHull pts).length →
        ConvF (getConvexHull pts ++ (getConvexHull pts).take 2)) := by
  by_cases hlen : pts.length ≤ 1
  · have he : getConvexHull pts = pts := by
      unfold getConvexHull
      rw [if_pos hlen]
    refine ⟨fun _ => he, ?_, ?_, ?_, ?_⟩
    · intro a b hab
      rw [hab] at hlen
      simp at hlen
    · rw [he]
      exact fun x h => h
    · rw [he]
      cases pts with
      | nil => intro q hq; cases hq
      | cons p t =>
          cases t with
          | nil =>
              intro q hq
              show List.Chain' _ [p, p]
              rw [List.chain'_cons]
              refine ⟨?_, List.chain'_singleton p⟩
              rw [cross_self_left]
          | cons p2 t2 => simp at hlen
    · rw [he]
      intro h3
      exfalso
      omega
  · push_neg at hlen
    have h2 : 2 ≤ pts.length := hlen
    have heq := getConvexHull_eq_hullS h2
    have hperm := List.mergeSort_perm pts lexLe
    have hnd2 : (pts.mergeSort lexLe).Nodup := List.Perm.nodup hperm.symm hnd
    have hlen2 : 2 ≤ (pts.mergeSort lexLe).length := by
      rw [hperm.length_eq]
      exact h2
    obtain ⟨hmemb, hcov, hconv⟩ :=
      hull_sorted_main (pts.mergeSort lexLe) (pairwise_mergeSort pts) hnd2 hlen2
    refine ⟨fun h => absurd h (by omega), ?_, ?_, ?_, ?_⟩
    · intro a b hab
      rw [hab]
      exact getConvexHull_pair a b
    · rw [heq]
      intro x hx
      exact hperm.mem_iff.mp (hmemb x hx)
    · rw [heq]
      intro q hq
      exact hcov q (hperm.mem_iff.mpr hq)
    · rw [heq]
      exact hconv

/-- C2 counterexample: the claim says an input of at most two points is
returned unchanged, but the code only short-circuits for at most one point;
a two-point input in reverse lexicographic order is returned sorted. -/
theorem c2_counterexample :
    getConvexHull [⟨1, 0⟩, ⟨0, 0⟩] ≠ [(⟨1, 0⟩ : Point), ⟨0, 0⟩]
    ∧ getConvexHull [⟨1, 0⟩, ⟨0, 0⟩] = [(⟨0, 0⟩ : Point), ⟨1, 0⟩] := by
  have hno : ¬(lexLe ⟨1, 0⟩ ⟨0, 0⟩ = true) := by
    rw [lexLe_iff]
    intro hcon
    unfold LexLeP at hcon
    rcases hcon with h | ⟨h, _⟩ <;> norm_num at h
  have he : getConvexHull [⟨1, 0⟩, ⟨0, 0⟩] = [(⟨0, 0⟩ : Point), ⟨1, 0⟩] := by
    rw [getConvexHull_pair, if_neg hno]
  refine ⟨?_, he⟩
  rw [he]
  intro hcon
  norm_num [Point.mk.injEq] at hcon

/-- C2 witness: the hull theorem applied to the concrete duplicate-free
input `[(0,0), (4,0), (2,2), (2,1)]` (a triangle with one interior point). -/
theorem c2_witness :
    ([(⟨0, 0⟩ : Point), ⟨4, 0⟩, ⟨2, 2⟩, ⟨2, 1⟩].Nodup)
    ∧ (([(⟨0, 0⟩ : Point), ⟨4, 0⟩, ⟨2, 2⟩, ⟨2, 1⟩].length ≤ 1 →
          getConvexHull [(⟨0, 0⟩ : Point), ⟨4, 0⟩, ⟨2, 2⟩, ⟨2, 1⟩]
            = [(⟨0, 0⟩ : Point), ⟨4, 0⟩, ⟨2, 2⟩, ⟨2, 1⟩])
        ∧ (∀ a b : Point, [(⟨0, 0⟩ : Point), ⟨4, 0⟩, ⟨2, 2⟩, ⟨2, 1⟩] = [a, b] →
            getConvexHull [(⟨0, 0⟩ : Point), ⟨4, 0⟩, ⟨2, 2⟩, ⟨2, 1⟩]
              = if lexLe a b then [a, b] else [b, a])
        ∧ (∀ x ∈ getConvexHull [(⟨0, 0⟩ : Point), ⟨4, 0⟩, ⟨2, 2⟩, ⟨2, 1⟩],
            x ∈ [(⟨0, 0⟩ : Point), ⟨4, 0⟩, ⟨2, 2⟩, ⟨2, 1⟩])
        ∧ (∀ q ∈ [(⟨0, 0⟩ : Point), ⟨4, 0⟩, ⟨2, 2⟩, ⟨2, 1⟩],
            List.Chain' (fun u v => 0 ≤ cross u v q)
              (getConvexHull [(⟨0, 0⟩ : Point), ⟨4, 0⟩, ⟨2, 2⟩, ⟨2, 1⟩]
                ++ (getConvexHull [(⟨0, 0⟩ : Point), ⟨4, 0⟩, ⟨2, 2⟩, ⟨2, 1⟩]).take 1))
        ∧ (3 ≤ (getConvexHull [(⟨0, 0⟩ : Point), ⟨4, 0⟩, ⟨2, 2⟩, ⟨2, 1⟩]).length →
            ConvF (getConvexHull [(⟨0, 0⟩ : Point), ⟨4, 0⟩, ⟨2, 2⟩, ⟨2, 1⟩]
              ++ (getConvexHull [(⟨0, 0⟩ : Point), ⟨4, 0⟩, ⟨2, 2⟩, ⟨2, 1⟩]).take 2))) := by
  have hnd : [(⟨0, 0⟩ : Point), ⟨4, 0⟩, ⟨2, 2⟩, ⟨2, 1⟩].Nodup := by
    norm_num [List.nodup_cons, List.mem_cons, Point.mk.injEq]
  exact ⟨hnd, c2_convex_hull [(⟨0, 0⟩ : Point), ⟨4, 0⟩, ⟨2, 2⟩, ⟨2, 1⟩] hnd⟩
